import Mathlib

/-!
Verification of the MediExplain "Resilient Structured-Text Extractor":
a shallow embedding, over `List Char`, of the defensive JSON-extraction
routines duplicated across the repository's bot modules
(`src/core/prescription_bot.py`, `src/core/clinical_notes_bot.py`,
`src/core/medication_bot.py`, `src/core/consistency_checker_bot.py`,
`src/core/vitals_bot.py`), of the retry loops wrapped around them, and of
the router in `src/app_synthetic/chat_app.py`.

Python strings are modelled as `List Char`; `json` values as the mutual
inductive `Json`/`JArr`/`JObj` (numbers restricted to integers, which covers
every input appearing in the claims; `json.dumps` is `serJ`, `json.loads`
is `loads`).  Every definition is written with structural (fuel-based)
recursion so that concrete runs reduce inside the kernel.
-/
/-- The backtick character (U+0060), used by markdown code fences. -/
def btick : Char := Char.ofNat 96

/-- The characters matched by the Python regex character class `\s`
(ASCII fragment), also the characters removed by `str.strip()`. -/
def isPyWs (c : Char) : Bool :=
  c == ' ' || c == '\x0b' || c == '\t' || c == '\x0c' || c == '\n' || c == '\r'

/-- JSON insignificant whitespace, as accepted by `json.loads`. -/
def isJsonWs (c : Char) : Bool :=
  c == ' ' || c == '\r' || c == '\t' || c == '\n'

/-- Fuel-driven worker for `replaceL`.  Mirrors Python `str.replace`:
leftmost-first, non-overlapping, scanning resumes after the replacement. -/
def replaceLF (pat rep : List Char) : Nat → List Char → List Char
  | 0, s => s
  | _ + 1, [] => []
  | fuel + 1, c :: cs =>
    if pat.isPrefixOf (c :: cs) then
      rep ++ replaceLF pat rep fuel (cs.drop (pat.length - 1))
    else
      c :: replaceLF pat rep fuel cs

/-- Python `s.replace(pat, rep)` on character lists. -/
def replaceL (pat rep s : List Char) : List Char :=
  replaceLF pat rep s.length s

/-- Python `str.strip()` (whitespace at both ends removed). -/
def trimPy (s : List Char) : List Char :=
  ((s.dropWhile isPyWs).reverse.dropWhile isPyWs).reverse

/-- Membership in the regex character class `[\x00-\x1f\x7f]`. -/
def isCtrlByte (c : Char) : Bool :=
  decide (c.toNat ≤ 31) || c.toNat == 127

/-- One step of `re.sub(r"[\x00-\x1f\x7f]", " ", text)`: each control
character becomes a single space. -/
def ctrlToSpace (c : Char) : Char :=
  if isCtrlByte c then ' ' else c

/-- `text.replace("\n", " ")`. -/
def flattenNewlines (s : List Char) : List Char :=
  s.map (fun c => if c == '\n' then ' ' else c)

/-- The characters allowed after a backslash by the legal-escape lookahead
`(?!["\\/bfnrtu])` in the bots' escape-scrubbing regex. -/
def isLegalEscapeChar (c : Char) : Bool :=
  c == '"' || c == '\\' || c == '/' || c == 'b' || c == 'f' ||
  c == 'n' || c == 'r' || c == 't' || c == 'u'

/-- `re.sub(r'\\(?!["\\/bfnrtu])', "", text)`: delete every backslash not
followed by a legal JSON escape character.  On a non-match the regex scan
advances one position, so the character after a kept backslash is examined
again (e.g. a backslash pair followed by `q` keeps only the first one). -/
def stripBadEscapes : List Char → List Char
  | [] => []
  | c :: rest =>
    if c == '\\' then
      match rest with
      | [] => []
      | d :: _ =>
        if isLegalEscapeChar d then c :: stripBadEscapes rest
        else stripBadEscapes rest
    else c :: stripBadEscapes rest

/-- `re.search(r"\{.*\}", text, re.DOTALL)`: with a greedy `.*` under
DOTALL this matches from the first opening brace to the last closing brace
of the text whenever some closing brace follows some opening brace. -/
def braceSpan (s : List Char) : Option (List Char) :=
  let t := s.dropWhile (fun c => !(c == '{'))
  let r := (t.reverse.dropWhile (fun c => !(c == '}'))).reverse
  if r.isEmpty then none else some r

/-- Fuel-driven worker for `subTrailing`. -/
def subTF (close : Char) : Nat → List Char → List Char
  | 0, s => s
  | _ + 1, [] => []
  | fuel + 1, c :: cs =>
    if c == ',' then
      match cs.dropWhile isPyWs with
      | d :: r3 =>
        if d == close then close :: subTF close fuel r3
        else ',' :: subTF close fuel cs
      | [] => ',' :: subTF close fuel cs
    else c :: subTF close fuel cs

/-- `re.sub(r",\s*(\})", r"\1", text)` (and the analogous `\]` variant):
each comma followed by optional whitespace and the closing delimiter is
replaced by the closing delimiter alone. -/
def subTrailing (close : Char) (s : List Char) : List Char :=
  subTF close s.length s

/-- Fuel-driven worker for `wsCollapse`. -/
def wsCollapseF : Nat → List Char → List Char
  | 0, s => s
  | _ + 1, [] => []
  | fuel + 1, c :: cs =>
    if isPyWs c then ' ' :: wsCollapseF fuel (cs.dropWhile isPyWs)
    else c :: wsCollapseF fuel cs

/-- `re.sub(r"\s+", " ", text)`: collapse each whitespace run to one space. -/
def wsCollapse (s : List Char) : List Char :=
  wsCollapseF s.length s

/-! ## The JSON data model (`StructuredRecord` of the spec)

Mutual inductives are used instead of nested `List` arguments so that all
recursions below are structural and kernel-reducible.  Numbers are
integers: no claim involves floating-point literals. -/
mutual
inductive Json where
  | null : Json
  | bool (b : Bool) : Json
  | num (n : Int) : Json
  | str (s : List Char) : Json
  | arr (elems : JArr) : Json
  | obj (members : JObj) : Json
inductive JArr where
  | nil : JArr
  | cons (hd : Json) (tl : JArr) : JArr
inductive JObj where
  | nil : JObj
  | cons (key : List Char) (value : Json) (tl : JObj) : JObj
end

/-- The decimal digit character for `n < 10`. -/
def digitChar (n : Nat) : Char := Char.ofNat (48 + n)

/-- Fuel-driven worker for `natChars`. -/
def natCharsF : Nat → Nat → List Char
  | 0, _ => []
  | fuel + 1, n =>
    if n < 10 then [digitChar n]
    else natCharsF fuel (n / 10) ++ [digitChar (n % 10)]

/-- Decimal digits of a natural number, most significant first. -/
def natChars (n : Nat) : List Char := natCharsF (n + 1) n

/-- Decimal rendering of an integer, as `json.dumps` renders Python ints. -/
def intChars (n : Int) : List Char :=
  if n < 0 then '-' :: natChars n.natAbs else natChars n.natAbs

/-! `serJ` models `json.dumps` with its default separators
(`", "` between items, `": "` after keys, no indent). -/
mutual
def serJ : Json → List Char
  | .null => 'n' :: ['u', 'l', 'l']
  | .bool true => 't' :: ['r', 'u', 'e']
  | .bool false => 'f' :: ['a', 'l', 's', 'e']
  | .num n => intChars n
  | .str s => '"' :: (s ++ ['"'])
  | .arr .nil => ['[', ']']
  | .arr (.cons x xs) => '[' :: (serJ x ++ serAMore xs)
  | .obj .nil => ['{', '}']
  | .obj (.cons k v ps) => '{' :: (serPair k v ++ serOMore ps)
def serPair : List Char → Json → List Char
  | k, v => '"' :: (k ++ '"' :: ':' :: ' ' :: serJ v)
def serAMore : JArr → List Char
  | .nil => [']']
  | .cons x xs => ',' :: ' ' :: (serJ x ++ serAMore xs)
def serOMore : JObj → List Char
  | .nil => ['}']
  | .cons k v ps => ',' :: ' ' :: (serPair k v ++ serOMore ps)
end

/-! Size measures used as parser fuel bounds. -/
mutual
def sizeJ : Json → Nat
  | .arr xs => 1 + sizeA xs
  | .obj ps => 1 + sizeO ps
  | _ => 1
def sizeA : JArr → Nat
  | .nil => 1
  | .cons x xs => 1 + sizeJ x + sizeA xs
def sizeO : JObj → Nat
  | .nil => 1
  | .cons _ v ps => 1 + sizeJ v + sizeO ps
end

/-- A string (key or value content) that `serJ` serializes verbatim between
quotes without needing escapes. -/
def plainStr (s : List Char) : Bool :=
  s.all (fun c => !(c == '"' || c == '\\'))

/-! Well-formed values: every string is serialized verbatim. -/
mutual
def wfJ : Json → Bool
  | .null => true
  | .bool _ => true
  | .num _ => true
  | .str s => plainStr s
  | .arr xs => wfA xs
  | .obj ps => wfO ps
def wfA : JArr → Bool
  | .nil => true
  | .cons x xs => wfJ x && wfA xs
def wfO : JObj → Bool
  | .nil => true
  | .cons k v ps => plainStr k && wfJ v && wfO ps
end

/-! ## The strict parser (model of `json.loads`)

A recursive-descent parser over `List Char` with explicit fuel.  It
implements the JSON value grammar with integer numbers and the standard
single-character escapes; this is exactly the fragment exercised by the
cleaned texts the extractors hand to `json.loads`. -/
/-- Skip insignificant JSON whitespace. -/
def skipWs (s : List Char) : List Char := s.dropWhile isJsonWs

/-- Value of the standard single-character escapes. -/
def escChar (c : Char) : Option Char :=
  if c == '"' then some '"'
  else if c == '/' then some '/'
  else if c == '\\' then some '\\'
  else if c == 'n' then some '\n'
  else if c == 'b' then some '\x08'
  else if c == 't' then some '\t'
  else if c == 'f' then some '\x0c'
  else if c == 'r' then some '\r'
  else none

/-- Parse the remainder of a string literal (the opening quote already
consumed), returning its contents and the rest of the input. -/
def parseStr : List Char → Option (List Char × List Char)
  | [] => none
  | c :: r =>
    if c == '"' then some ([], r)
    else if c == '\\' then
      match r with
      | [] => none
      | d :: r2 =>
        match escChar d with
        | some e =>
          match parseStr r2 with
          | some (cs, r3) => some (e :: cs, r3)
          | none => none
        | none => none
    else
      match parseStr r with
      | some (cs, r2) => some (c :: cs, r2)
      | none => none

/-- Match an exact literal continuation (used for `null`, `true`,
`false`), returning the rest of the input. -/
def expectLit : List Char → List Char → Option (List Char)
  | [], s => some s
  | _ :: _, [] => none
  | c :: cs, d :: ds => if c == d then expectLit cs ds else none

/-- Greedily consume decimal digits, accumulating their value. -/
def digitsLoop : List Char → Nat → Nat × List Char
  | [], acc => (acc, [])
  | c :: r, acc =>
    if c.isDigit then digitsLoop r (acc * 10 + (c.toNat - 48))
    else (acc, c :: r)

/-- Parse a nonempty digit sequence. -/
def parseNat : List Char → Option (Nat × List Char)
  | [] => none
  | c :: r =>
    if c.isDigit then some (digitsLoop r (c.toNat - 48)) else none

mutual
/-- Parse one JSON value (no leading whitespace). -/
def parseVal : Nat → List Char → Option (Json × List Char)
  | 0, _ => none
  | fuel + 1, s =>
    match s with
    | [] => none
    | c :: r =>
      if c == '"' then
        match parseStr r with
        | some (cs, r2) => some (.str cs, r2)
        | none => none
      else if c == '{' then
        match skipWs r with
        | [] => none
        | d :: r2 =>
          if d == '}' then some (.obj .nil, r2)
          else
            match parseMembers fuel (d :: r2) with
            | some (ps, r3) => some (.obj ps, r3)
            | none => none
      else if c == '[' then
        match skipWs r with
        | [] => none
        | d :: r2 =>
          if d == ']' then some (.arr .nil, r2)
          else
            match parseElements fuel (d :: r2) with
            | some (xs, r3) => some (.arr xs, r3)
            | none => none
      else if c == '-' then
        match parseNat r with
        | some (k, r2) => some (.num (-(k : Int)), r2)
        | none => none
      else if c == 'n' then
        match expectLit ['u', 'l', 'l'] r with
        | some r2 => some (.null, r2)
        | none => none
      else if c == 't' then
        match expectLit ['r', 'u', 'e'] r with
        | some r2 => some (.bool true, r2)
        | none => none
      else if c == 'f' then
        match expectLit ['a', 'l', 's', 'e'] r with
        | some r2 => some (.bool false, r2)
        | none => none
      else if c.isDigit then
        match parseNat (c :: r) with
        | some (k, r2) => some (.num (k : Int), r2)
        | none => none
      else none

/-- Parse a nonempty member list of an object, ending at `}`. -/
def parseMembers : Nat → List Char → Option (JObj × List Char)
  | 0, _ => none
  | fuel + 1, s =>
    match s with
    | [] => none
    | c :: r =>
      if c == '"' then
        match parseStr r with
        | some (k, r1) =>
          match skipWs r1 with
          | [] => none
          | d :: r2 =>
            if d == ':' then
              match parseVal fuel (skipWs r2) with
              | some (v, r3) =>
                match skipWs r3 with
                | [] => none
                | e :: r4 =>
                  if e == ',' then
                    match parseMembers fuel (skipWs r4) with
                    | some (ps, r5) => some (.cons k v ps, r5)
                    | none => none
                  else if e == '}' then some (.cons k v .nil, r4)
                  else none
              | none => none
            else none
        | none => none
      else none

/-- Parse a nonempty element list of an array, ending at `]`. -/
def parseElements : Nat → List Char → Option (JArr × List Char)
  | 0, _ => none
  | fuel + 1, s =>
    match parseVal fuel s with
    | some (v, r) =>
      match skipWs r with
      | [] => none
      | e :: r2 =>
        if e == ',' then
          match parseElements fuel (skipWs r2) with
          | some (xs, r3) => some (.cons v xs, r3)
          | none => none
        else if e == ']' then some (.cons v .nil, r2)
        else none
    | none => none
end

/-- Model of `json.loads`: parse one value surrounded only by whitespace;
anything left over ("extra data") is a parse failure.  The fuel
`2 * length + 2` dominates the recursion depth of any parse of the input
(each unit of fuel spent consumes at least one character or closes one
level), so the fuel is an artifact of the embedding, not a semantic
limit. -/
def loads (s : List Char) : Option Json :=
  match parseVal (2 * s.length + 2) (skipWs s) with
  | some (v, rest) => if (skipWs rest).isEmpty then some v else none
  | none => none

/-! ## The extractor of `src/core/prescription_bot.py` (`_safe_extract_json`)

`src/core/clinical_notes_bot.py` contains the identical pipeline (same
steps in the same order); only the message strings differ.  The error
taxonomy of spec §7 is the inductive `ExtErr`; the payloads are the bounded
excerpts embedded in the raised `ValueError` messages. -/
inductive ExtErr where
  | emptyInput : ExtErr
  | noBlock (rawPrefix : List Char) : ExtErr
  | parseFail (cleanedPrefix : List Char) : ExtErr

/-- The markdown fence openers removed first: `"```json"` and `"```"`. -/
def fenceJson : List Char := [btick, btick, btick, 'j', 's', 'o', 'n']

/-- The bare markdown fence `"```"`. -/
def fence : List Char := [btick, btick, btick]

/-- `_safe_extract_json` of the prescription bot (and, step for step, of the
clinical-notes bot): fence stripping, control-character scrubbing, newline
flattening, illegal-escape removal, greedy first-`{`-to-last-`}` span
selection, doubled-brace collapse, trailing-comma removal before `}` then
before `]`, whitespace collapse, then one strict parse. -/
def safeExtractJson (text : List Char) : Except ExtErr Json :=
  if text.isEmpty then .error .emptyInput
  else
    let t1 := trimPy (replaceL fence [] (replaceL fenceJson [] text))
    let t2 := t1.map ctrlToSpace
    let t3 := flattenNewlines t2
    let t4 := stripBadEscapes t3
    match braceSpan t4 with
    | none => .error (.noBlock (t4.take 1500))
    | some j0 =>
      let j1 := replaceL ['{', '{'] ['{'] j0
      let j2 := replaceL ['}', '}'] ['}'] j1
      let j3 := subTrailing '}' j2
      let j4 := subTrailing ']' j3
      let j5 := wsCollapse j4
      match loads j5 with
      | some v => .ok v
      | none => .error (.parseFail (j5.take 4000))

/-- Error raised by the medication bot's `_safe_extract_json`
(`src/core/medication_bot.py`): it has no empty-input guard, so only two
failure kinds exist there. -/
inductive MedErr where
  | noBlock : MedErr
  | parseFail (rawPrefix : List Char) : MedErr

/-- `_safe_extract_json` of the medication bot: fences, control characters,
greedy brace span, then a direct parse — no empty-input check, no escape or
comma repair. -/
def medSafeExtractJson (text : List Char) : Except MedErr Json :=
  let t1 := trimPy (replaceL fence [] (replaceL fenceJson [] text))
  let t2 := t1.map ctrlToSpace
  match braceSpan t2 with
  | none => .error .noBlock
  | some j0 =>
    match loads j0 with
    | some v => .ok v
    | none => .error (.parseFail (j0.take 400))

/-- The fallback record `{"consistency_report": {"errors": [msg],
"warnings": [], "suggested_fixes": []}}` that the consistency checker's
extractor substitutes internally on failure. -/
def consistencyDefault (msg : List Char) : Json :=
  .obj (.cons "consistency_report".data
    (.obj (.cons "errors".data (.arr (.cons (.str msg) .nil))
      (.cons "warnings".data (.arr .nil)
        (.cons "suggested_fixes".data (.arr .nil) .nil))))
    .nil)

/-- `_safe_extract_json` of `src/core/consistency_checker_bot.py`: the same
kind of pipeline (fences, control characters, brace span, trailing commas
before `]` then `}`), but every failure is replaced by a default report
inside the extractor itself — it never raises. -/
def consistencySafeExtract (text : List Char) : Json :=
  if text.isEmpty then consistencyDefault "Empty response from LLM".data
  else
    let t1 := trimPy (replaceL fence [] (replaceL fenceJson [] text))
    let t2 := t1.map ctrlToSpace
    match braceSpan t2 with
    | none => consistencyDefault "No JSON object found in LLM output".data
    | some j0 =>
      let j1 := subTrailing ']' j0
      let j2 := subTrailing '}' j1
      match loads j2 with
      | some v => v
      | none => consistencyDefault "JSON parsing failed".data

/-- The three failure kinds of the consistency checker's pipeline, for the
refinement comparison below. -/
inductive ConsErr where
  | emptyInput : ConsErr
  | noBlock : ConsErr
  | parseFail : ConsErr

/-- Modelled from the spec's propagation policy (§7): the consistency
checker's pipeline with its three failure kinds surfaced as a typed error
instead of being substituted internally.  Used only to state that
`consistencySafeExtract` equals this extractor post-composed with default
substitution. -/
def consistencyExtractE (text : List Char) : Except ConsErr Json :=
  if text.isEmpty then .error .emptyInput
  else
    let t1 := trimPy (replaceL fence [] (replaceL fenceJson [] text))
    let t2 := t1.map ctrlToSpace
    match braceSpan t2 with
    | none => .error .noBlock
    | some j0 =>
      let j1 := subTrailing ']' j0
      let j2 := subTrailing '}' j1
      match loads j2 with
      | some v => .ok v
      | none => .error .parseFail

/-- The default report substituted for each failure kind. -/
def consistencyDefaultFor : ConsErr → Json
  | .emptyInput => consistencyDefault "Empty response from LLM".data
  | .noBlock => consistencyDefault "No JSON object found in LLM output".data
  | .parseFail => consistencyDefault "JSON parsing failed".data

/-! ## The vitals bot (`src/core/vitals_bot.py`)

Its module imports are `os`, `datetime`, `OpenAI` and (conditionally)
`streamlit` — neither `json` nor `re` is imported.  Python name resolution
is modelled by membership in this import list: using `json.…` or `re.…`
raises `NameError` when the name is absent. -/
def vitalsImports : List String := ["os", "datetime", "OpenAI", "streamlit"]

/-- Possible outcomes of the vitals bot's `_safe_extract_json`: the typed
`ValueError`s it means to raise, an escaped `NameError`, or a parsed
record. -/
inductive VitalsOutcome where
  | valueErrorEmpty : VitalsOutcome
  | valueErrorNoBraces : VitalsOutcome
  | valueErrorParse : VitalsOutcome
  | nameError (missing : String) : VitalsOutcome
  | parsed (v : Json) : VitalsOutcome

/-- `_safe_extract_json` of the vitals bot.  The `try: return
json.loads(text)` is guarded by `except Exception: pass`, which swallows
both the `NameError` (when `json` is not imported) and any parse error; the
subsequent `re.search` sits outside any handler, so a missing `re` escapes
as an uncaught `NameError`. -/
def vitalsSafeExtract (text : List Char) : VitalsOutcome :=
  if text.isEmpty then .valueErrorEmpty
  else
    let t := trimPy (replaceL fence [] (replaceL fenceJson [] text))
    let tryDirect : Option VitalsOutcome :=
      if "json" ∈ vitalsImports then
        match loads t with
        | some v => some (.parsed v)
        | none => none
      else none
    match tryDirect with
    | some o => o
    | none =>
      if "re" ∈ vitalsImports then
        match braceSpan t with
        | none => .valueErrorNoBraces
        | some j0 =>
          let j1 := replaceL ['\\', '"'] ['"'] j0
          if "json" ∈ vitalsImports then
            match loads j1 with
            | some v => .parsed v
            | none => .valueErrorParse
          else .nameError "json"
      else .nameError "re"

/-! ## Retry loops around "produce completion, then extract"

The completion service is the external collaborator of spec §6: each of the
three attempts either raises inside `client.responses.create` (`apiFail`)
or yields a completion text.  `presGen` models the loop of
`generate_prescriptions_llm` (prescription bot), which re-raises after
exhaustion; `notesGen` models `generate_clinical_notes_llm`
(clinical-notes bot), which instead returns the raw unparsed text of the
last completion — or hits an unbound local `raw` if no attempt ever
produced a completion. -/
inductive Attempt where
  | apiFail : Attempt
  | text (raw : List Char) : Attempt

/-- Result of the prescription bot's loop: a record, or the `ValueError`
raised after 3 failed attempts (carrying the last error). -/
def presGenAux : List Attempt → Option ExtErr → Except (Option ExtErr) Json
  | [], lastError => .error lastError
  | a :: rest, lastError =>
    match a with
    | .apiFail => presGenAux rest lastError
    | .text raw =>
      match safeExtractJson raw with
      | .ok v => .ok v
      | .error e => presGenAux rest (some e)

/-- `generate_prescriptions_llm`'s retry loop (`for attempt in range(3)`);
after the three attempts it raises `ValueError(f"... failed after 3
attempts: {last_error}")`. -/
def presGen (a0 a1 a2 : Attempt) : Except (Option ExtErr) Json :=
  presGenAux [a0, a1, a2] none

/-- Result of the clinical-notes bot's loop: a record, the raw unparsed
text returned by its final fallback, or the `NameError` from `return raw`
when no attempt ever bound `raw`. -/
inductive NotesResult where
  | record (v : Json) : NotesResult
  | rawText (raw : List Char) : NotesResult
  | unboundRaw : NotesResult

/-- The loop of `generate_clinical_notes_llm`, threading the last bound
value of `raw` (assigned before each extraction attempt). -/
def notesGenAux : List Attempt → Option (List Char) → NotesResult
  | [], none => .unboundRaw
  | [], some raw => .rawText raw
  | a :: rest, lastRaw =>
    match a with
    | .apiFail => notesGenAux rest lastRaw
    | .text raw =>
      match safeExtractJson raw with
      | .ok v => .record v
      | .error _ => notesGenAux rest (some raw)

/-- `generate_clinical_notes_llm`'s retry loop: three attempts, then
`return raw` — the raw text, not an error. -/
def notesGen (a0 a1 a2 : Attempt) : NotesResult :=
  notesGenAux [a0, a1, a2] none

/-! ## The router (`route_to_specialist_bot` in
`src/app_synthetic/chat_app.py`) -/
/-- The fixed bot-name set the router's prompt and membership check use. -/
def validBots : List (List Char) :=
  ["EXPLAINER".data, "LABS".data, "MEDS".data, "CAREPLAN".data,
   "SNAPSHOT".data, "SUPPORT".data, "PRESCRIPTIONS".data,
   "OUT_OF_SCOPE".data]

/-- ASCII model of Python `str.upper()`. -/
def toUpperC (c : Char) : Char :=
  if 'a' ≤ c && c ≤ 'z' then Char.ofNat (c.toNat - 32) else c

/-- Python `dict.get`: on duplicate keys `json.loads` keeps the last
occurrence, so lookup returns the last binding. -/
def lookupLast (k : List Char) : JObj → Option Json
  | .nil => none
  | .cons k2 v rest =>
    match lookupLast k rest with
    | some r => some r
    | none => if k2 == k then some v else none

/-- `clean = resp.replace("```json", "").replace("```", "").strip()`. -/
def routeClean (resp : List Char) : List Char :=
  trimPy (replaceL fence [] (replaceL fenceJson [] resp))

/-- The bot name produced by `json.loads(clean).get("bot",
"EXPLAINER").upper()` when that expression does not raise: the parsed
value must be an object and the `"bot"` binding (or the default) a string.
Any other shape raises inside the `try` and falls back to `"EXPLAINER"`. -/
def parsedBotName (resp : List Char) : Option (List Char) :=
  match loads (routeClean resp) with
  | some (.obj ps) =>
    match lookupLast "bot".data ps with
    | some (.str s) => some (s.map toUpperC)
    | some _ => none
    | none => some ("EXPLAINER".data.map toUpperC)
  | some _ => none
  | none => none

/-- `route_to_specialist_bot`, from the classification completion text
onward: parse the cleaned response, take `.get("bot", "EXPLAINER").upper()`
with every exception mapped to `"EXPLAINER"`, then force membership in
`validBots`. -/
def routeToSpecialistBot (resp : List Char) : List Char :=
  let botName : List Char :=
    match parsedBotName resp with
    | some nm => nm
    | none => "EXPLAINER".data
  if botName ∈ validBots then botName else "EXPLAINER".data

/-! ## Predicates used by the cleanup and insertion lemmas -/

/-- `pat` occurs as a contiguous substring of `s`. -/
def occurs (pat : List Char) : List Char → Bool
  | [] => pat.isEmpty
  | s@(_ :: rest) => pat.isPrefixOf s || occurs pat rest

/-- A comma-whitespace-`close` pattern (the match of `re.sub(r",\s*(close)",
…)`) starts somewhere in `s`. -/
def hasPat (close : Char) : List Char → Bool
  | [] => false
  | c :: rest =>
    (if c == ',' then
      (match rest.dropWhile isPyWs with
       | d :: _ => d == close
       | [] => false)
     else false) || hasPat close rest

/-- No two adjacent whitespace characters. -/
def noRun : List Char → Bool
  | [] => true
  | [_] => true
  | a :: b :: rest => !(isPyWs a && isPyWs b) && noRun (b :: rest)

/-- A cleaned candidate text on which every repair step of
`safeExtractJson` is the identity: it starts with `{`, ends with `}`,
contains no fences, no control bytes, no backslashes, no doubled braces,
no comma-before-closer patterns, and no whitespace other than isolated
spaces. -/
def pristine (s : List Char) : Bool :=
  (s.head? == some '{') && (s.getLast? == some '}') &&
  !occurs fenceJson s && !occurs fence s &&
  s.all (fun c => !isCtrlByte c) &&
  s.all (fun c => !(c == '\\')) &&
  !occurs ['{', '{'] s && !occurs ['}', '}'] s &&
  !hasPat '}' s && !hasPat ']' s &&
  noRun s && s.all (fun c => !isPyWs c || c == ' ')

/-- A continuation that cannot extend a numeric token. -/
def restOk : List Char → Bool
  | [] => true
  | c :: _ => !c.isDigit

/-- Value accumulated by `digitsLoop` over a digit list. -/
def digitsVal (acc : Nat) (ds : List Char) : Nat :=
  ds.foldl (fun a c => a * 10 + (c.toNat - 48)) acc

/-! ## Retry-loop helpers -/

/-- Whether an attempt of the retry loop fails: the completion call raised,
or both modelled extractors reject the returned text. -/
def attemptFails : Attempt → Bool
  | .apiFail => true
  | .text s =>
    match safeExtractJson s with
    | .ok _ => false
    | .error _ => true

/-- The last completion text bound by the loop, starting from `lr`. -/
def lastTextFrom : List Attempt → Option (List Char) → Option (List Char)
  | [], lr => lr
  | a :: rest, lr =>
    lastTextFrom rest (match a with | .apiFail => lr | .text s => some s)

/-! ## Theorems -/

theorem occurs_cons_false {pat : List Char} {c : Char} {cs : List Char}
    (h : occurs pat (c :: cs) = false) :
    pat.isPrefixOf (c :: cs) = false ∧ occurs pat cs = false := by
  simpa [occurs] using h

theorem replaceLF_of_not_occurs {pat : List Char} (rep : List Char) {s : List Char}
    (h : occurs pat s = false) : ∀ fuel, replaceLF pat rep fuel s = s := by
  induction s with
  | nil => intro fuel; cases fuel <;> rfl
  | cons c cs ih =>
    intro fuel
    cases fuel with
    | zero => rfl
    | succ f =>
      obtain ⟨h1, h2⟩ := occurs_cons_false h
      simp only [replaceLF, h1, Bool.false_eq_true, if_false]
      exact congrArg (c :: ·) (ih h2 f)

theorem replaceL_of_not_occurs {pat : List Char} (rep : List Char) {s : List Char}
    (h : occurs pat s = false) : replaceL pat rep s = s :=
  replaceLF_of_not_occurs rep h s.length

theorem all_of_isPrefixOf {p : Char → Bool} {pat l : List Char}
    (hpre : pat.isPrefixOf l = true) (hall : l.all p = true) : pat.all p = true := by
  rw [List.isPrefixOf_iff_prefix] at hpre
  obtain ⟨t, rfl⟩ := hpre
  simp only [List.all_append, Bool.and_eq_true] at hall
  exact hall.1

theorem not_occurs_of_all {p : Char → Bool} {pat s : List Char}
    (hall : s.all p = true) (hpat : pat.all p = false) : occurs pat s = false := by
  induction s with
  | nil =>
    cases pat with
    | nil => simp at hpat
    | cons a as => simp [occurs]
  | cons c cs ih =>
    simp only [occurs, Bool.or_eq_false_iff]
    constructor
    · by_contra hne
      have : pat.isPrefixOf (c :: cs) = true := by
        cases hpre : pat.isPrefixOf (c :: cs) with
        | false => exact absurd hpre hne
        | true => rfl
      have := all_of_isPrefixOf this hall
      rw [this] at hpat
      exact Bool.true_eq_false.mp hpat
    · exact ih (by simp only [List.all_cons, Bool.and_eq_true] at hall; exact hall.2)

theorem map_id_of_all {f : Char → Char} {s : List Char}
    (h : ∀ c ∈ s, f c = c) : s.map f = s := by
  induction s with
  | nil => rfl
  | cons c cs ih =>
    simp only [List.map_cons, h c (List.mem_cons_self c cs)]
    exact congrArg (c :: ·) (ih fun d hd => h d (List.mem_cons_of_mem c hd))

theorem stripBadEscapes_of_no_backslash {s : List Char}
    (h : s.all (fun c => !(c == '\\')) = true) : stripBadEscapes s = s := by
  induction s with
  | nil => rfl
  | cons c cs ih =>
    simp only [List.all_cons, Bool.and_eq_true, Bool.not_eq_eq_eq_not, Bool.not_true] at h
    simp only [stripBadEscapes, h.1, Bool.false_eq_true, if_false]
    exact congrArg (c :: ·) (ih (by simpa using h.2))

theorem trimPy_eq_self {s : List Char} {c d : Char} (hc : isPyWs c = false)
    (hd : isPyWs d = false) (hhead : s.head? = some c) (hlast : s.getLast? = some d) :
    trimPy s = s := by
  cases s with
  | nil => simp at hhead
  | cons c0 t =>
    have hc0 : c0 = c := by simpa using hhead
    subst hc0
    have h1 : (c0 :: t).dropWhile isPyWs = c0 :: t := by
      simp [List.dropWhile_cons, hc]
    have hrev : (c0 :: t).reverse.head? = some d := by
      rw [List.head?_reverse]
      exact hlast
    have h2 : (c0 :: t).reverse.dropWhile isPyWs = (c0 :: t).reverse := by
      cases hr : (c0 :: t).reverse with
      | nil => simp
      | cons e u =>
        have he : e = d := by rw [hr] at hrev; simpa using hrev
        subst he
        simp [List.dropWhile_cons, hd]
    unfold trimPy
    rw [h1, h2, List.reverse_reverse]

theorem braceSpan_full {s : List Char} (hhead : s.head? = some '{')
    (hlast : s.getLast? = some '}') : braceSpan s = some s := by
  cases s with
  | nil => simp at hhead
  | cons c0 t =>
    have hc0 : c0 = '{' := by simpa using hhead
    subst hc0
    have h1 : ('{' :: t).dropWhile (fun c => !(c == '{')) = '{' :: t := by
      simp [List.dropWhile_cons]
    have hrev : ('{' :: t).reverse.head? = some '}' := by
      rw [List.head?_reverse]; exact hlast
    have h2 : ('{' :: t).reverse.dropWhile (fun c => !(c == '}')) = ('{' :: t).reverse := by
      cases hr : ('{' :: t).reverse with
      | nil => simp
      | cons e u =>
        have he : e = '}' := by rw [hr] at hrev; simpa using hrev
        subst he
        simp [List.dropWhile_cons]
    unfold braceSpan
    simp only [h1, h2, List.reverse_reverse, List.isEmpty_cons, if_false]
    rfl

theorem hasPat_cons_false {close c : Char} {cs : List Char}
    (h : hasPat close (c :: cs) = false) :
    (c == ',' → (match cs.dropWhile isPyWs with
      | d :: _ => (d == close) = false
      | [] => True)) ∧ hasPat close cs = false := by
  simp only [hasPat, Bool.or_eq_false_iff] at h
  refine ⟨fun hc => ?_, h.2⟩
  have h1 := h.1
  rw [hc, if_pos rfl] at h1
  cases hdw : cs.dropWhile isPyWs with
  | nil => trivial
  | cons d r => rw [hdw] at h1; exact h1

theorem subTF_of_not_hasPat {close : Char} {s : List Char}
    (h : hasPat close s = false) : ∀ fuel, subTF close fuel s = s := by
  induction s with
  | nil => intro fuel; cases fuel <;> rfl
  | cons c cs ih =>
    intro fuel
    cases fuel with
    | zero => rfl
    | succ f =>
      obtain ⟨h1, h2⟩ := hasPat_cons_false h
      by_cases hc : c == ','
      · have hcv : c = ',' := by simpa using hc
        subst hcv
        have h1' := h1 rfl
        simp only [subTF, if_pos rfl]
        cases hdw : cs.dropWhile isPyWs with
        | nil => exact congrArg (',' :: ·) (ih h2 f)
        | cons d r =>
          rw [hdw] at h1'
          simp only [h1', Bool.false_eq_true, if_false]
          exact congrArg (',' :: ·) (ih h2 f)
      · have hcb : (c == ',') = false := by simpa using hc
        simp only [subTF, hcb, Bool.false_eq_true, if_false]
        exact congrArg (c :: ·) (ih h2 f)

theorem noRun_tail {c : Char} {cs : List Char} (h : noRun (c :: cs) = true) :
    noRun cs = true := by
  cases cs with
  | nil => rfl
  | cons b r => simp only [noRun, Bool.and_eq_true] at h; exact h.2

theorem wsCollapseF_noop {s : List Char} (hnr : noRun s = true)
    (hsp : s.all (fun c => !isPyWs c || c == ' ') = true) :
    ∀ fuel, wsCollapseF fuel s = s := by
  induction s with
  | nil => intro fuel; cases fuel <;> rfl
  | cons c cs ih =>
    intro fuel
    cases fuel with
    | zero => rfl
    | succ f =>
      simp only [List.all_cons, Bool.and_eq_true] at hsp
      by_cases hw : isPyWs c
      · have hc : c = ' ' := by
          have := hsp.1
          rw [hw] at this
          simpa using this
        have hdw : cs.dropWhile isPyWs = cs := by
          cases cs with
          | nil => rfl
          | cons b r =>
            have : isPyWs b = false := by
              simp only [noRun, Bool.and_eq_true, Bool.not_eq_eq_eq_not,
                Bool.not_true, Bool.and_eq_false_iff] at hnr
              rcases hnr.1 with h | h
              · rw [hw] at h; simp at h
              · exact h
            simp [List.dropWhile_cons, this]
        simp only [wsCollapseF, hw, if_true, hdw]
        rw [← hc]
        exact congrArg (c :: ·) (ih (noRun_tail hnr) hsp.2 f)
      · have hwb : isPyWs c = false := by simpa using hw
        simp only [wsCollapseF, hwb, Bool.false_eq_true, if_false]
        exact congrArg (c :: ·) (ih (noRun_tail hnr) hsp.2 f)

theorem safeExtractJson_of_pristine {s : List Char} (h : pristine s = true) :
    safeExtractJson s =
      match loads s with
      | some v => Except.ok v
      | none => Except.error (.parseFail (s.take 4000)) := by
  simp only [pristine, Bool.and_eq_true, beq_iff_eq, Bool.not_eq_eq_eq_not,
    Bool.not_true] at h
  obtain ⟨⟨⟨⟨⟨⟨⟨⟨⟨⟨⟨hhead, hlast⟩, hfj⟩, hf⟩, hctrl⟩, hbs⟩, hdo⟩, hdc⟩, hp1⟩, hp2⟩,
    hnr⟩, hsp⟩ := h
  have hne : s.isEmpty = false := by
    cases s with
    | nil => simp at hhead
    | cons a t => rfl
  have hctrl' : ∀ c ∈ s, isCtrlByte c = false := by
    intro c hc
    have := (List.all_eq_true.mp hctrl) c hc
    simpa using this
  have hmapctrl : s.map ctrlToSpace = s := by
    apply map_id_of_all
    intro c hc
    simp [ctrlToSpace, hctrl' c hc]
  have hmapnl : flattenNewlines s = s := by
    apply map_id_of_all
    intro c hc
    have hcn : (c == '\n') = false := by
      by_contra hx
      have : c = '\n' := by
        cases hy : (c == '\n') with
        | false => exact absurd hy hx
        | true => simpa using hy
      subst this
      have := hctrl' '\n' hc
      simp [isCtrlByte] at this
    simp [hcn]
  have hstrip : stripBadEscapes s = s := stripBadEscapes_of_no_backslash hbs
  have htrim : trimPy s = s :=
    trimPy_eq_self (c := '{') (d := '}') (by decide) (by decide) hhead hlast
  have hspan : braceSpan s = some s := braceSpan_full hhead hlast
  have hsub1 : subTrailing '}' s = s := subTF_of_not_hasPat hp1 s.length
  have hsub2 : subTrailing ']' s = s := subTF_of_not_hasPat hp2 s.length
  have hws : wsCollapse s = s := wsCollapseF_noop hnr hsp s.length
  unfold safeExtractJson
  rw [if_neg (by simp [hne])]
  simp only [replaceL_of_not_occurs _ hfj, replaceL_of_not_occurs _ hf, htrim,
    hmapctrl]
  rw [hmapnl, hstrip, hspan]
  simp only []
  rw [replaceL_of_not_occurs _ hdo, replaceL_of_not_occurs _ hdc, hsub1, hsub2,
    hws]

theorem natCharsF_stable (n : Nat) : ∀ f g, n < f → n < g →
    natCharsF f n = natCharsF g n := by
  induction n using Nat.strong_induction_on with
  | _ n ih =>
    intro f g hf hg
    cases f with
    | zero => omega
    | succ f =>
      cases g with
      | zero => omega
      | succ g =>
        simp only [natCharsF]
        by_cases h10 : n < 10
        · simp [h10]
        · have hdiv : n / 10 < n := Nat.div_lt_self (by omega) (by omega)
          simp only [h10, if_false]
          rw [ih (n / 10) hdiv f g (by omega) (by omega)]

theorem natChars_lt10 {n : Nat} (h : n < 10) : natChars n = [digitChar n] := by
  simp [natChars, natCharsF, h]

theorem natChars_ge10 {n : Nat} (h : 10 ≤ n) :
    natChars n = natChars (n / 10) ++ [digitChar (n % 10)] := by
  have hdiv : n / 10 < n := Nat.div_lt_self (by omega) (by omega)
  unfold natChars
  conv_lhs => rw [natCharsF]
  rw [if_neg (by omega)]
  rw [natCharsF_stable (n / 10) n (n / 10 + 1) (by omega) (by omega)]

theorem digitChar_isDigit {k : Nat} (h : k < 10) : (digitChar k).isDigit = true := by
  interval_cases k <;> decide

theorem digitChar_val {k : Nat} (h : k < 10) : (digitChar k).toNat - 48 = k := by
  interval_cases k <;> decide

theorem natChars_ne_nil (n : Nat) : natChars n ≠ [] := by
  by_cases h10 : n < 10
  · rw [natChars_lt10 h10]; simp
  · rw [natChars_ge10 (by omega)]; simp

theorem natChars_all_digits (n : Nat) : ∀ c ∈ natChars n, c.isDigit = true := by
  induction n using Nat.strong_induction_on with
  | _ n ih =>
    by_cases h10 : n < 10
    · rw [natChars_lt10 h10]
      intro c hc
      simp only [List.mem_singleton] at hc
      subst hc
      exact digitChar_isDigit h10
    · rw [natChars_ge10 (by omega)]
      intro c hc
      rcases List.mem_append.mp hc with hc | hc
      · exact ih (n / 10) (Nat.div_lt_self (by omega) (by omega)) c hc
      · simp only [List.mem_singleton] at hc
        subst hc
        exact digitChar_isDigit (Nat.mod_lt _ (by omega))

theorem natChars_head_digit (n : Nat) :
    ∃ c t, natChars n = c :: t ∧ c.isDigit = true := by
  cases hn : natChars n with
  | nil => exact absurd hn (natChars_ne_nil n)
  | cons c t =>
    refine ⟨c, t, rfl, ?_⟩
    have := natChars_all_digits n c
    rw [hn] at this
    exact this (List.mem_cons_self c t)

theorem digitsLoop_digits (A : List Char) (rest : List Char)
    (hA : ∀ c ∈ A, c.isDigit = true) :
    ∀ acc, digitsLoop (A ++ rest) acc = digitsLoop rest (digitsVal acc A) := by
  induction A with
  | nil => intro acc; rfl
  | cons d A' ih =>
    intro acc
    have hd : d.isDigit = true := hA d (List.mem_cons_self d A')
    simp only [List.cons_append, digitsLoop, hd, if_true]
    show digitsLoop (A' ++ rest) (acc * 10 + (d.toNat - 48)) =
      digitsLoop rest (digitsVal acc (d :: A'))
    rw [ih (fun c hc => hA c (List.mem_cons_of_mem d hc))]
    rfl

theorem digitsLoop_stop {rest : List Char} (acc : Nat) (h : restOk rest = true) :
    digitsLoop rest acc = (acc, rest) := by
  cases rest with
  | nil => rfl
  | cons c r =>
    have : c.isDigit = false := by simpa [restOk] using h
    simp [digitsLoop, this]

theorem digitsVal_natChars (n : Nat) :
    ∀ acc, digitsVal acc (natChars n) = acc * 10 ^ (natChars n).length + n := by
  induction n using Nat.strong_induction_on with
  | _ n ih =>
    intro acc
    by_cases h10 : n < 10
    · rw [natChars_lt10 h10]
      simp [digitsVal, digitChar_val h10]
    · rw [natChars_ge10 (by omega)]
      have hdiv : n / 10 < n := Nat.div_lt_self (by omega) (by omega)
      simp only [digitsVal, List.foldl_append, List.foldl_cons, List.foldl_nil,
        List.length_append, List.length_cons, List.length_nil]
      have hfold := ih (n / 10) hdiv acc
      simp only [digitsVal] at hfold
      rw [hfold, digitChar_val (Nat.mod_lt _ (by omega))]
      rw [pow_succ]
      have hdm := Nat.div_add_mod n 10
      ring_nf
      omega

theorem parseNat_natChars (n : Nat) {rest : List Char} (h : restOk rest = true) :
    parseNat (natChars n ++ rest) = some (n, rest) := by
  obtain ⟨c, t, hct, hdig⟩ := natChars_head_digit n
  have hall := natChars_all_digits n
  rw [hct] at hall ⊢
  simp only [List.cons_append, parseNat, hdig, if_true]
  rw [digitsLoop_digits t rest (fun d hd => hall d (List.mem_cons_of_mem c hd))]
  have hv : digitsVal (c.toNat - 48) t = n := by
    have h0 := digitsVal_natChars n 0
    rw [hct] at h0
    simpa [digitsVal] using h0
  rw [hv, digitsLoop_stop n h]

theorem digit_ne_of_lit {c : Char} (h : c.isDigit = true) (x : Char)
    (hx : x.isDigit = false) : (c == x) = false := by
  cases hcx : c == x with
  | false => rfl
  | true =>
    have hce : c = x := by simpa using hcx
    subst hce
    rw [h] at hx
    exact absurd hx (by simp)

theorem digit_not_ws {c : Char} (h : c.isDigit = true) :
    isJsonWs c = false ∧ isPyWs c = false := by
  constructor <;>
    simp [isJsonWs, isPyWs, digit_ne_of_lit h ' ' (by decide),
      digit_ne_of_lit h '\t' (by decide), digit_ne_of_lit h '\n' (by decide),
      digit_ne_of_lit h '\r' (by decide), digit_ne_of_lit h '\x0b' (by decide),
      digit_ne_of_lit h '\x0c' (by decide)]

theorem expectLit_append (pat rest : List Char) :
    expectLit pat (pat ++ rest) = some rest := by
  induction pat with
  | nil => rfl
  | cons c cs ih => simp [expectLit, ih]

theorem plainStr_cons {c : Char} {k : List Char} (h : plainStr (c :: k) = true) :
    (c == '"') = false ∧ (c == '\\') = false ∧ plainStr k = true := by
  simp only [plainStr, List.all_cons, Bool.and_eq_true, Bool.not_eq_eq_eq_not,
    Bool.not_true, Bool.or_eq_false_iff] at h
  exact ⟨h.1.1, h.1.2, h.2⟩

theorem parseStr_plain {k : List Char} (rest : List Char) (h : plainStr k = true) :
    parseStr (k ++ '"' :: rest) = some (k, rest) := by
  induction k with
  | nil => simp [parseStr.eq_def]
  | cons c k' ih =>
    obtain ⟨h1, h2, h3⟩ := plainStr_cons h
    rw [List.cons_append, parseStr.eq_def]
    simp only [h1, h2, Bool.false_eq_true, if_false]
    rw [ih h3]

theorem skipWs_cons {c : Char} {t : List Char} (h : isJsonWs c = false) :
    skipWs (c :: t) = c :: t := by
  simp [skipWs, List.dropWhile_cons, h]

theorem serJ_head (v : Json) :
    ∃ c t, serJ v = c :: t ∧ isJsonWs c = false ∧ (c == ']') = false ∧
      (c == '}') = false := by
  cases v with
  | null => exact ⟨'n', ['u', 'l', 'l'], by simp [serJ], by decide, by decide, by decide⟩
  | bool b =>
    cases b with
    | true => exact ⟨'t', ['r', 'u', 'e'], by simp [serJ], by decide, by decide, by decide⟩
    | false =>
      exact ⟨'f', ['a', 'l', 's', 'e'], by simp [serJ], by decide, by decide, by decide⟩
  | num n =>
    by_cases hneg : n < 0
    · exact ⟨'-', natChars n.natAbs, by simp [serJ, intChars, hneg], by decide,
        by decide, by decide⟩
    · obtain ⟨c, t, hct, hdig⟩ := natChars_head_digit n.natAbs
      exact ⟨c, t, by simp [serJ, intChars, hneg, hct], (digit_not_ws hdig).1,
        digit_ne_of_lit hdig ']' (by decide), digit_ne_of_lit hdig '}' (by decide)⟩
  | str s => exact ⟨'"', s ++ ['"'], by simp [serJ], by decide, by decide, by decide⟩
  | arr xs =>
    cases xs with
    | nil => exact ⟨'[', [']'], by simp [serJ], by decide, by decide, by decide⟩
    | cons x xs' =>
      exact ⟨'[', serJ x ++ serAMore xs', by simp [serJ], by decide, by decide,
        by decide⟩
  | obj ps =>
    cases ps with
    | nil => exact ⟨'{', ['}'], by simp [serJ], by decide, by decide, by decide⟩
    | cons k v' ps' =>
      exact ⟨'{', serPair k v' ++ serOMore ps', by simp [serJ], by decide,
        by decide, by decide⟩

theorem sizeJ_pos (v : Json) : 1 ≤ sizeJ v := by
  cases v <;> simp [sizeJ]

theorem sizeA_pos (xs : JArr) : 1 ≤ sizeA xs := by
  cases xs with
  | nil => simp [sizeA]
  | cons x t => simp [sizeA]; omega

theorem sizeO_pos (ps : JObj) : 1 ≤ sizeO ps := by
  cases ps with
  | nil => simp [sizeO]
  | cons k v t => simp [sizeO]; omega

/-! ## Parser correctness: `loads` inverts `serJ` -/
theorem parse_ser_roundtrip : ∀ n : Nat,
    (∀ v rest fuel, sizeJ v ≤ n → sizeJ v ≤ fuel → wfJ v = true →
      restOk rest = true → parseVal fuel (serJ v ++ rest) = some (v, rest)) ∧
    (∀ k v ps rest fuel, 1 + sizeJ v + sizeO ps ≤ n → 1 + sizeJ v + sizeO ps ≤ fuel →
      plainStr k = true → wfJ v = true → wfO ps = true →
      parseMembers fuel (serPair k v ++ (serOMore ps ++ rest)) =
        some (.cons k v ps, rest)) ∧
    (∀ v xs rest fuel, 1 + sizeJ v + sizeA xs ≤ n → 1 + sizeJ v + sizeA xs ≤ fuel →
      wfJ v = true → wfA xs = true →
      parseElements fuel (serJ v ++ (serAMore xs ++ rest)) =
        some (.cons v xs, rest)) := by
  intro n
  induction n using Nat.strong_induction_on with
  | _ n ih =>
    refine ⟨?_, ?_, ?_⟩
    · -- single values
      intro v rest fuel hn hfuel hwf hrest
      cases fuel with
      | zero => have := sizeJ_pos v; omega
      | succ F =>
        cases v with
        | null =>
          have hs : serJ Json.null = ['n', 'u', 'l', 'l'] := by simp [serJ]
          have he : expectLit ['u', 'l', 'l'] ('u' :: 'l' :: 'l' :: rest) = some rest :=
            expectLit_append ['u', 'l', 'l'] rest
          rw [hs, parseVal.eq_def]
          simp +decide [he]
        | bool b =>
          cases b with
          | true =>
            have hs : serJ (Json.bool true) = ['t', 'r', 'u', 'e'] := by simp [serJ]
            have he : expectLit ['r', 'u', 'e'] ('r' :: 'u' :: 'e' :: rest) = some rest :=
              expectLit_append ['r', 'u', 'e'] rest
            rw [hs, parseVal.eq_def]
            simp +decide [he]
          | false =>
            have hs : serJ (Json.bool false) = ['f', 'a', 'l', 's', 'e'] := by simp [serJ]
            have he : expectLit ['a', 'l', 's', 'e'] ('a' :: 'l' :: 's' :: 'e' :: rest) =
                some rest := expectLit_append ['a', 'l', 's', 'e'] rest
            rw [hs, parseVal.eq_def]
            simp +decide [he]
        | num m =>
          have hs : serJ (Json.num m) = intChars m := by simp [serJ]
          rw [hs]
          by_cases hneg : m < 0
          · have hi : intChars m = '-' :: natChars m.natAbs := by simp [intChars, hneg]
            have hp : parseNat (natChars m.natAbs ++ rest) = some (m.natAbs, rest) :=
              parseNat_natChars m.natAbs hrest
            rw [hi, parseVal.eq_def]
            simp only [List.cons_append]
            simp +decide [hp]
            rw [abs_of_neg hneg, neg_neg]
          · have hi : intChars m = natChars m.natAbs := by simp [intChars, hneg]
            obtain ⟨c, t, hct, hdig⟩ := natChars_head_digit m.natAbs
            have hp : parseNat ((c :: t) ++ rest) = some (m.natAbs, rest) := by
              rw [← hct]; exact parseNat_natChars m.natAbs hrest
            rw [hi, hct, parseVal.eq_def]
            simp only [List.cons_append]
            simp only [digit_ne_of_lit hdig '"' (by decide),
              digit_ne_of_lit hdig '{' (by decide), digit_ne_of_lit hdig '[' (by decide),
              digit_ne_of_lit hdig '-' (by decide), digit_ne_of_lit hdig 'n' (by decide),
              digit_ne_of_lit hdig 't' (by decide), digit_ne_of_lit hdig 'f' (by decide),
              hdig, Bool.false_eq_true, if_false, if_true]
            simp only [List.cons_append] at hp
            rw [hp]
            have hmn : (m.natAbs : Int) = m := by omega
            simp [hmn]
        | str s =>
          have hs : serJ (Json.str s) ++ rest = '"' :: (s ++ '"' :: rest) := by
            simp [serJ]
          have hwfs : plainStr s = true := by simpa [wfJ] using hwf
          have hps := parseStr_plain rest hwfs
          rw [hs, parseVal.eq_def]
          simp +decide [hps]
        | arr xs =>
          cases xs with
          | nil =>
            have hs : serJ (Json.arr JArr.nil) = ['[', ']'] := by simp [serJ]
            have hsw : skipWs (']' :: rest) = ']' :: rest := skipWs_cons (by decide)
            rw [hs, parseVal.eq_def]
            simp +decide [hsw]
          | cons x xs' =>
            have hs : serJ (Json.arr (JArr.cons x xs')) ++ rest =
                '[' :: (serJ x ++ (serAMore xs' ++ rest)) := by
              simp [serJ]
            obtain ⟨c0, t0, hct0, hws0, hne1, hne2⟩ := serJ_head x
            have hsz : sizeJ (Json.arr (JArr.cons x xs')) = 2 + sizeJ x + sizeA xs' := by
              simp [sizeJ, sizeA]; omega
            have hwf' : wfJ x = true ∧ wfA xs' = true := by
              have : wfA (JArr.cons x xs') = true := by simpa [wfJ] using hwf
              simpa [wfA] using this
            have hel := (ih (n - 1) (by omega)).2.2 x xs' rest F
              (by omega) (by omega) hwf'.1 hwf'.2
            have hskip : skipWs (serJ x ++ (serAMore xs' ++ rest)) =
                serJ x ++ (serAMore xs' ++ rest) := by
              rw [hct0, List.cons_append]
              exact skipWs_cons hws0
            simp only [hct0, List.cons_append] at hskip hel
            rw [hs, parseVal.eq_def]
            simp only [hct0, List.cons_append]
            simp +decide [hskip, hel, hne1]
        | obj ps =>
          cases ps with
          | nil =>
            have hs : serJ (Json.obj JObj.nil) = ['{', '}'] := by simp [serJ]
            have hsw : skipWs ('}' :: rest) = '}' :: rest := skipWs_cons (by decide)
            rw [hs, parseVal.eq_def]
            simp +decide [hsw]
          | cons k v ps =>
            have hs : serJ (Json.obj (JObj.cons k v ps)) ++ rest =
                '{' :: (serPair k v ++ (serOMore ps ++ rest)) := by simp [serJ]
            have hsp : serPair k v ++ (serOMore ps ++ rest) =
                '"' :: (k ++ '"' :: ':' :: ' ' :: (serJ v ++ (serOMore ps ++ rest))) := by
              simp [serPair]
            have hsz1 : sizeJ (Json.obj (JObj.cons k v ps)) =
                1 + sizeO (JObj.cons k v ps) := by simp [sizeJ]
            have hsz2 : sizeO (JObj.cons k v ps) = 1 + sizeJ v + sizeO ps := by
              simp [sizeO]
            have hvp := sizeJ_pos v
            have hpp := sizeO_pos ps
            have hwf' : plainStr k = true ∧ wfJ v = true ∧ wfO ps = true := by
              have h0 : wfO (JObj.cons k v ps) = true := by simpa [wfJ] using hwf
              simpa [wfO, Bool.and_eq_true, and_assoc] using h0
            have hmem := (ih (n - 1) (by omega)).2.1 k v ps rest F
              (by omega) (by omega) hwf'.1 hwf'.2.1 hwf'.2.2
            have hskip : skipWs ('"' :: (k ++ '"' :: ':' :: ' ' ::
                (serJ v ++ (serOMore ps ++ rest)))) = '"' :: (k ++ '"' :: ':' :: ' ' ::
                (serJ v ++ (serOMore ps ++ rest))) := skipWs_cons (by decide)
            simp only [hsp] at hmem
            rw [hs, parseVal.eq_def]
            simp only [hsp]
            simp +decide [hskip, hmem]
    · -- object member lists
      intro k v ps rest fuel hn hfuel hk hwv hwps
      have hvp := sizeJ_pos v
      have hpp := sizeO_pos ps
      cases fuel with
      | zero => omega
      | succ F =>
        have hsp : serPair k v ++ (serOMore ps ++ rest) =
            '"' :: (k ++ '"' :: ':' :: ' ' :: (serJ v ++ (serOMore ps ++ rest))) := by
          simp [serPair]
        have hps : parseStr (k ++ '"' :: (':' :: ' ' ::
            (serJ v ++ (serOMore ps ++ rest)))) =
            some (k, ':' :: ' ' :: (serJ v ++ (serOMore ps ++ rest))) :=
          parseStr_plain _ hk
        have hsw1 : skipWs (':' :: ' ' :: (serJ v ++ (serOMore ps ++ rest))) =
            ':' :: ' ' :: (serJ v ++ (serOMore ps ++ rest)) := skipWs_cons (by decide)
        obtain ⟨c0, t0, hct0, hws0, hcne1, hcne2⟩ := serJ_head v
        have hsw2 : skipWs (' ' :: (serJ v ++ (serOMore ps ++ rest))) =
            serJ v ++ (serOMore ps ++ rest) := by
          have h1 : skipWs (' ' :: (serJ v ++ (serOMore ps ++ rest))) =
              skipWs (serJ v ++ (serOMore ps ++ rest)) := by
            unfold skipWs
            exact List.dropWhile_cons_of_pos (by decide)
          rw [h1, hct0, List.cons_append]
          exact skipWs_cons hws0
        have hro : restOk (serOMore ps ++ rest) = true := by
          cases ps with
          | nil => simp +decide [serOMore, restOk]
          | cons k2 v2 ps2 => simp +decide [serOMore, restOk]
        have hval := (ih (n - 1) (by omega)).1 v (serOMore ps ++ rest) F
          (by omega) (by omega) hwv hro
        cases ps with
        | nil =>
          have hso : serOMore JObj.nil ++ rest = '}' :: rest := by simp [serOMore]
          have hsw3 : skipWs ('}' :: rest) = '}' :: rest := skipWs_cons (by decide)
          rw [hsp, parseMembers.eq_def]
          simp only [hso] at hval hps hsw1 hsw2
          simp +decide [hso, hps, hsw1, hsw2, hval, hsw3]
        | cons k2 v2 ps2 =>
          have hso : serOMore (JObj.cons k2 v2 ps2) ++ rest =
              ',' :: ' ' :: (serPair k2 v2 ++ (serOMore ps2 ++ rest)) := by
            simp [serOMore]
          have hsz3 : sizeO (JObj.cons k2 v2 ps2) = 1 + sizeJ v2 + sizeO ps2 := by
            simp [sizeO]
          have hv2p := sizeJ_pos v2
          have hp2p := sizeO_pos ps2
          have hwf2 : plainStr k2 = true ∧ wfJ v2 = true ∧ wfO ps2 = true := by
            simpa [wfO, Bool.and_eq_true, and_assoc] using hwps
          have hmem2 := (ih (n - 1) (by omega)).2.1 k2 v2 ps2 rest F
            (by omega) (by omega) hwf2.1 hwf2.2.1 hwf2.2.2
          have hsp2 : serPair k2 v2 ++ (serOMore ps2 ++ rest) =
              '"' :: ((k2 ++ '"' :: ':' :: ' ' :: serJ v2) ++
                (serOMore ps2 ++ rest)) := by
            simp [serPair]
          have hsw4 : skipWs (' ' :: (serPair k2 v2 ++ (serOMore ps2 ++ rest))) =
              serPair k2 v2 ++ (serOMore ps2 ++ rest) := by
            have h1 : skipWs (' ' :: (serPair k2 v2 ++ (serOMore ps2 ++ rest))) =
                skipWs (serPair k2 v2 ++ (serOMore ps2 ++ rest)) := by
              unfold skipWs
              exact List.dropWhile_cons_of_pos (by decide)
            rw [h1, hsp2]
            exact skipWs_cons (by decide)
          have hsw5 : skipWs (',' :: ' ' :: (serPair k2 v2 ++ (serOMore ps2 ++ rest))) =
              ',' :: ' ' :: (serPair k2 v2 ++ (serOMore ps2 ++ rest)) :=
            skipWs_cons (by decide)
          rw [hsp, parseMembers.eq_def]
          simp only [hso] at hval hps hsw1 hsw2
          simp +decide [hso, hps, hsw1, hsw2, hval, hsw5, hsw4, hmem2]
    · -- array element lists
      intro v xs rest fuel hn hfuel hwv hwxs
      have hvp := sizeJ_pos v
      have hxp := sizeA_pos xs
      cases fuel with
      | zero => omega
      | succ F =>
        have hro : restOk (serAMore xs ++ rest) = true := by
          cases xs with
          | nil => simp +decide [serAMore, restOk]
          | cons x2 xs2 => simp +decide [serAMore, restOk]
        have hval := (ih (n - 1) (by omega)).1 v (serAMore xs ++ rest) F
          (by omega) (by omega) hwv hro
        cases xs with
        | nil =>
          have hsa : serAMore JArr.nil ++ rest = ']' :: rest := by simp [serAMore]
          have hsw3 : skipWs (']' :: rest) = ']' :: rest := skipWs_cons (by decide)
          rw [parseElements.eq_def]
          simp only [hsa] at hval
          simp +decide [hval, hsw3, hsa]
        | cons x2 xs2 =>
          have hsa : serAMore (JArr.cons x2 xs2) ++ rest =
              ',' :: ' ' :: (serJ x2 ++ (serAMore xs2 ++ rest)) := by
            simp [serAMore]
          have hsz3 : sizeA (JArr.cons x2 xs2) = 1 + sizeJ x2 + sizeA xs2 := by
            simp [sizeA]
          have hx2p := sizeJ_pos x2
          have hxs2p := sizeA_pos xs2
          have hwf2 : wfJ x2 = true ∧ wfA xs2 = true := by
            simpa [wfA, Bool.and_eq_true] using hwxs
          have hel2 := (ih (n - 1) (by omega)).2.2 x2 xs2 rest F
            (by omega) (by omega) hwf2.1 hwf2.2
          obtain ⟨c2, t2, hct2, hws2, hcne3, hcne4⟩ := serJ_head x2
          have hsw4 : skipWs (' ' :: (serJ x2 ++ (serAMore xs2 ++ rest))) =
              serJ x2 ++ (serAMore xs2 ++ rest) := by
            have h1 : skipWs (' ' :: (serJ x2 ++ (serAMore xs2 ++ rest))) =
                skipWs (serJ x2 ++ (serAMore xs2 ++ rest)) := by
              unfold skipWs
              exact List.dropWhile_cons_of_pos (by decide)
            rw [h1, hct2, List.cons_append]
            exact skipWs_cons hws2
          have hsw5 : skipWs (',' :: ' ' :: (serJ x2 ++ (serAMore xs2 ++ rest))) =
              ',' :: ' ' :: (serJ x2 ++ (serAMore xs2 ++ rest)) :=
            skipWs_cons (by decide)
          rw [parseElements.eq_def]
          simp only [hsa] at hval
          simp +decide [hval, hsa, hsw5, hsw4, hel2]

theorem ser_length2 : ∀ n : Nat,
    (∀ v, sizeJ v ≤ n → sizeJ v ≤ 2 * (serJ v).length) ∧
    (∀ xs, sizeA xs ≤ n → sizeA xs ≤ 2 * (serAMore xs).length) ∧
    (∀ ps, sizeO ps ≤ n → sizeO ps ≤ 2 * (serOMore ps).length) := by
  intro n
  induction n using Nat.strong_induction_on with
  | _ n ih =>
    refine ⟨?_, ?_, ?_⟩
    · intro v hn
      cases v with
      | null => simp [serJ, sizeJ]
      | bool b => cases b <;> simp [serJ, sizeJ]
      | num m =>
        have hnn := natChars_ne_nil m.natAbs
        cases hc : natChars m.natAbs with
        | nil => exact absurd hc hnn
        | cons c t =>
          by_cases hneg : m < 0 <;> simp [serJ, sizeJ, intChars, hneg, hc] <;> omega
      | str s => simp [serJ, sizeJ]; omega
      | arr xs =>
        cases xs with
        | nil => simp [serJ, sizeJ, sizeA]
        | cons x xs2 =>
          have h1 := sizeJ_pos x
          have h2 := sizeA_pos xs2
          have hsz : sizeJ (Json.arr (JArr.cons x xs2)) =
              2 + sizeJ x + sizeA xs2 := by simp [sizeJ, sizeA]; omega
          have hx := (ih (n - 1) (by omega)).1 x (by omega)
          have hxs := (ih (n - 1) (by omega)).2.1 xs2 (by omega)
          have hlen : (serJ (Json.arr (JArr.cons x xs2))).length =
              1 + (serJ x).length + (serAMore xs2).length := by
            simp [serJ]; omega
          omega
      | obj ps =>
        cases ps with
        | nil => simp [serJ, sizeJ, sizeO]
        | cons k v2 ps2 =>
          have h1 := sizeJ_pos v2
          have h2 := sizeO_pos ps2
          have hsz : sizeJ (Json.obj (JObj.cons k v2 ps2)) =
              2 + sizeJ v2 + sizeO ps2 := by simp [sizeJ, sizeO]; omega
          have hv := (ih (n - 1) (by omega)).1 v2 (by omega)
          have hps := (ih (n - 1) (by omega)).2.2 ps2 (by omega)
          have hlen : (serJ (Json.obj (JObj.cons k v2 ps2))).length =
              1 + (serPair k v2).length + (serOMore ps2).length := by
            simp [serJ]; omega
          have hplen : (serPair k v2).length = 4 + k.length + (serJ v2).length := by
            simp [serPair]; omega
          omega
    · intro xs hn
      cases xs with
      | nil => simp [serAMore, sizeA]
      | cons x xs2 =>
        have h1 := sizeJ_pos x
        have h2 := sizeA_pos xs2
        have hsz : sizeA (JArr.cons x xs2) = 1 + sizeJ x + sizeA xs2 := by
          simp [sizeA]
        have hx := (ih (n - 1) (by omega)).1 x (by omega)
        have hxs := (ih (n - 1) (by omega)).2.1 xs2 (by omega)
        have hlen : (serAMore (JArr.cons x xs2)).length =
            2 + (serJ x).length + (serAMore xs2).length := by
          simp [serAMore]; omega
        omega
    · intro ps hn
      cases ps with
      | nil => simp [serOMore, sizeO]
      | cons k v2 ps2 =>
        have h1 := sizeJ_pos v2
        have h2 := sizeO_pos ps2
        have hsz : sizeO (JObj.cons k v2 ps2) = 1 + sizeJ v2 + sizeO ps2 := by
          simp [sizeO]
        have hv := (ih (n - 1) (by omega)).1 v2 (by omega)
        have hps := (ih (n - 1) (by omega)).2.2 ps2 (by omega)
        have hlen : (serOMore (JObj.cons k v2 ps2)).length =
            2 + (serPair k v2).length + (serOMore ps2).length := by
          simp [serOMore]; omega
        have hplen : (serPair k v2).length = 4 + k.length + (serJ v2).length := by
          simp [serPair]; omega
        omega

/-- `sizeJ v` is at most twice the serialized length. -/
theorem sizeJ_le_two_len (v : Json) : sizeJ v ≤ 2 * (serJ v).length :=
  (ser_length2 (sizeJ v)).1 v le_rfl

theorem occurs_cons (pat : List Char) (c : Char) (cs : List Char) :
    occurs pat (c :: cs) = (pat.isPrefixOf (c :: cs) || occurs pat cs) := rfl

theorem prefix_insert {pat t u : List Char} (hpc : ',' ∉ pat)
    (h : pat <+: (t ++ ',' :: u)) : pat <+: (t ++ u) := by
  induction pat generalizing t with
  | nil => exact List.nil_prefix
  | cons p ps ih =>
    cases t with
    | nil =>
      obtain ⟨hp, _⟩ := List.cons_prefix_cons.mp h
      exact absurd (hp ▸ List.mem_cons_self p ps) hpc
    | cons a t' =>
      obtain ⟨hp, hps⟩ := List.cons_prefix_cons.mp (by simpa using h)
      subst hp
      have h2 := ih (fun hm => hpc (List.mem_cons_of_mem _ hm)) (t := t') hps
      rw [List.cons_append]
      exact List.cons_prefix_cons.mpr ⟨rfl, h2⟩

theorem occurs_insert {pat t u : List Char} (hne : pat ≠ []) (hpc : ',' ∉ pat)
    (h : occurs pat (t ++ u) = false) : occurs pat (t ++ ',' :: u) = false := by
  induction t with
  | nil =>
    simp only [List.nil_append] at h ⊢
    rw [occurs_cons, Bool.or_eq_false_iff]
    refine ⟨?_, h⟩
    cases hpre : pat.isPrefixOf (',' :: u) with
    | false => rfl
    | true =>
      have hp := List.isPrefixOf_iff_prefix.mp hpre
      cases pat with
      | nil => exact absurd rfl hne
      | cons p ps =>
        obtain ⟨hp1, _⟩ := List.cons_prefix_cons.mp hp
        exact absurd (hp1 ▸ List.mem_cons_self p ps) hpc
  | cons a t' ih =>
    simp only [List.cons_append] at h ⊢
    rw [occurs_cons, Bool.or_eq_false_iff]
    rw [occurs_cons, Bool.or_eq_false_iff] at h
    refine ⟨?_, ih h.2⟩
    cases hpre : pat.isPrefixOf (a :: (t' ++ ',' :: u)) with
    | false => rfl
    | true =>
      have hp := List.isPrefixOf_iff_prefix.mp hpre
      have hp2 : pat <+: (a :: (t' ++ u)) := by
        have := prefix_insert (t := a :: t') hpc (by simpa using hp)
        simpa using this
      rw [List.isPrefixOf_iff_prefix.mpr hp2] at h
      exact absurd h.1 (by simp)

theorem hasPat_suffix {close : Char} {x y : List Char}
    (h : hasPat close (x ++ y) = false) : hasPat close y = false := by
  induction x with
  | nil => exact h
  | cons a x' ih =>
    simp only [List.cons_append] at h
    exact ih (hasPat_cons_false h).2

theorem hasPat_extend {close : Char} {t : List Char} (x : List Char)
    (h : hasPat close t = true) : hasPat close (t ++ x) = true := by
  induction t with
  | nil => simp [hasPat] at h
  | cons a t' ih =>
    simp only [hasPat, Bool.or_eq_true] at h ⊢
    rcases h with h | h
    · left
      by_cases ha : a == ','
      · rw [if_pos ha] at h ⊢
        cases hdw : t'.dropWhile isPyWs with
        | nil => rw [hdw] at h; simp at h
        | cons e es =>
          rw [hdw] at h
          have hde : (t' ++ x).dropWhile isPyWs = e :: (es ++ x) := by
            rw [List.dropWhile_append]
            simp [hdw]
          rw [List.append_eq, hde]
          exact h
      · rw [if_neg ha] at h
        exact absurd h (by simp)
    · right
      rw [List.append_eq]
      exact ih h

theorem subTF_split {close : Char} {a b : List Char}
    (ha : hasPat close a = false)
    (hb : match b with
      | [] => True
      | d :: _ => isPyWs d = false ∧ (d == close) = false) :
    ∀ fuel, a.length + b.length ≤ fuel →
      subTF close fuel (a ++ b) = a ++ subTF close (fuel - a.length) b := by
  induction a with
  | nil => intro fuel hf; simp
  | cons c a' ih =>
    intro fuel hf
    obtain ⟨h1, h2⟩ := hasPat_cons_false ha
    cases fuel with
    | zero => simp at hf
    | succ f =>
      have hrec : subTF close (f + 1 - (a'.length + 1)) b =
          subTF close (f - a'.length) b := by
        congr 1
        omega
      by_cases hc : c == ','
      · have hcv : c = ',' := by simpa using hc
        subst hcv
        have h1' := h1 rfl
        rw [List.cons_append, subTF.eq_def]
        simp only [if_pos rfl]
        cases hda : a'.dropWhile isPyWs with
        | cons e es =>
          rw [hda] at h1'
          have hde : (a' ++ b).dropWhile isPyWs = e :: (es ++ b) := by
            rw [List.dropWhile_append]
            simp [hda]
          rw [hde]
          simp only [h1', Bool.false_eq_true, if_false]
          rw [ih h2 f (by simp at hf ⊢; omega)]
          simp only [List.length_cons, hrec, List.cons_append]
          simp
        | nil =>
          have hde : (a' ++ b).dropWhile isPyWs = b.dropWhile isPyWs := by
            rw [List.dropWhile_append]
            simp [hda]
          rw [hde]
          cases b with
          | nil =>
            simp only [List.dropWhile_nil]
            rw [ih h2 f (by simp at hf ⊢; omega)]
            simp only [List.length_cons, hrec, List.cons_append]
            simp
          | cons d bs =>
            obtain ⟨hd1, hd2⟩ := hb
            rw [List.dropWhile_cons_of_neg (by simp [hd1])]
            simp only [hd2, Bool.false_eq_true, if_false]
            rw [ih h2 f (by simp at hf ⊢; omega)]
            simp only [List.length_cons, hrec, List.cons_append]
            simp
      · have hcb : (c == ',') = false := by simpa using hc
        rw [List.cons_append, subTF.eq_def]
        simp only [hcb, Bool.false_eq_true, if_false]
        rw [ih h2 f (by simp at hf ⊢; omega)]
        simp only [List.length_cons, hrec, List.cons_append]

theorem subTF_fire {close : Char} (hcw : isPyWs close = false)
    {u : List Char} (hu : hasPat close u = false) :
    ∀ fuel, 1 ≤ fuel → subTF close fuel (',' :: close :: u) = close :: u := by
  intro fuel hf
  cases fuel with
  | zero => omega
  | succ f =>
    rw [subTF.eq_def]
    have hdw : List.dropWhile isPyWs (close :: u) = close :: u :=
      List.dropWhile_cons_of_neg (by simp [hcw])
    simp +decide [hdw, subTF_of_not_hasPat hu]

theorem subTF_no_fire_bracket {u : List Char}
    (hu : hasPat '}' (']' :: u) = false) :
    ∀ fuel, subTF '}' fuel (',' :: ']' :: u) = ',' :: ']' :: u := by
  intro fuel
  cases fuel with
  | zero => rfl
  | succ f =>
    rw [subTF.eq_def]
    have hdw : List.dropWhile isPyWs (']' :: u) = ']' :: u :=
      List.dropWhile_cons_of_neg (by decide)
    simp +decide [hdw, subTF_of_not_hasPat hu]

theorem noRun_cons_pair {a b : Char} {l : List Char}
    (h : noRun (a :: b :: l) = true) :
    (isPyWs a && isPyWs b) = false ∧ noRun (b :: l) = true := by
  simp only [noRun, Bool.and_eq_true, Bool.not_eq_true'] at h
  exact h

theorem noRun_insert {t u : List Char} (h : noRun (t ++ u) = true) :
    noRun (t ++ ',' :: u) = true := by
  induction t with
  | nil =>
    simp only [List.nil_append] at h ⊢
    cases u with
    | nil => rfl
    | cons b u2 =>
      simp only [noRun, Bool.and_eq_true, Bool.not_eq_true']
      exact ⟨by simp +decide [isPyWs], h⟩
  | cons a t2 ih =>
    simp only [List.cons_append] at h
    cases t2 with
    | nil =>
      simp only [List.nil_append] at ih
      have h2 : noRun (',' :: u) = true := by
        apply ih
        cases u with
        | nil => rfl
        | cons b u2 => exact (noRun_cons_pair h).2
      simp only [List.cons_append, List.nil_append, noRun, Bool.and_eq_true,
        Bool.not_eq_true']
      exact ⟨by simp +decide [isPyWs], h2⟩
    | cons a2 t3 =>
      simp only [List.cons_append] at h ih
      obtain ⟨h1, h2⟩ := noRun_cons_pair h
      have h3 := ih h2
      simp only [List.cons_append] at h3
      simp only [List.cons_append, noRun, Bool.and_eq_true, Bool.not_eq_true']
      exact ⟨h1, h3⟩

theorem safeExtract_insert_comma {t u : List Char} {c : Char}
    (hc : c = '}' ∨ c = ']') (hp : pristine (t ++ c :: u) = true) :
    safeExtractJson (t ++ ',' :: c :: u) =
      match loads (t ++ c :: u) with
      | some v => Except.ok v
      | none => Except.error (.parseFail ((t ++ c :: u).take 4000)) := by
  simp only [pristine, Bool.and_eq_true, beq_iff_eq, Bool.not_eq_eq_eq_not,
    Bool.not_true] at hp
  obtain ⟨⟨⟨⟨⟨⟨⟨⟨⟨⟨⟨hhead, hlast⟩, hfj⟩, hf⟩, hctrl⟩, hbs⟩, hdo⟩, hdc⟩, hq1⟩, hq2⟩,
    hnr⟩, hsp⟩ := hp
  have hcne : c ≠ '{' := by rcases hc with rfl | rfl <;> decide
  cases t with
  | nil =>
    exfalso
    simp only [List.nil_append, List.head?_cons] at hhead
    exact hcne (Option.some.inj hhead)
  | cons a t0 =>
    have ha : a = '{' := by
      simp only [List.cons_append, List.head?_cons] at hhead
      exact Option.some.inj hhead
    -- last character facts
    have hlast2 : (',' :: c :: u).getLast? = (c :: u).getLast? := by
      rw [show (',' :: c :: u) = [','] ++ (c :: u) from rfl]
      exact List.getLast?_append_of_ne_nil _ (by simp)
    have hlastS : ((a :: t0) ++ c :: u).getLast? = (c :: u).getLast? :=
      List.getLast?_append_of_ne_nil _ (by simp)
    have hlast' : ((a :: t0) ++ ',' :: c :: u).getLast? = some '}' := by
      rw [List.getLast?_append_of_ne_nil _ (by simp), hlast2, ← hlastS]
      exact hlast
    -- all-character facts transfer
    have hallT : ∀ p : Char → Bool, p ',' = true →
        ((a :: t0) ++ c :: u).all p = true →
        ((a :: t0) ++ ',' :: c :: u).all p = true := by
      intro p hpc hall
      simp only [List.all_append, List.all_cons, Bool.and_eq_true] at hall ⊢
      exact ⟨hall.1, hpc, hall.2⟩
    have hctrl' := hallT _ (by decide) hctrl
    have hbs' := hallT _ (by decide) hbs
    have hsp' := hallT _ (by decide) hsp
    -- occurrence facts transfer
    have hfj' : occurs fenceJson ((a :: t0) ++ ',' :: c :: u) = false :=
      occurs_insert (by decide) (by decide) hfj
    have hf' : occurs fence ((a :: t0) ++ ',' :: c :: u) = false :=
      occurs_insert (by decide) (by decide) hf
    have hdo' : occurs ['{', '{'] ((a :: t0) ++ ',' :: c :: u) = false :=
      occurs_insert (by decide) (by decide) hdo
    have hdc' : occurs ['}', '}'] ((a :: t0) ++ ',' :: c :: u) = false :=
      occurs_insert (by decide) (by decide) hdc
    have hnr' : noRun ((a :: t0) ++ ',' :: c :: u) = true := noRun_insert hnr
    -- step-by-step no-ops on the comma-inserted string
    have hne' : ((a :: t0) ++ ',' :: c :: u).isEmpty = false := by simp
    have hhead' : ((a :: t0) ++ ',' :: c :: u).head? = some '{' := by
      simp only [List.cons_append, List.head?_cons]
      exact ha ▸ rfl
    have hmapctrl : ((a :: t0) ++ ',' :: c :: u).map ctrlToSpace =
        (a :: t0) ++ ',' :: c :: u := by
      apply map_id_of_all
      intro d hd
      have := (List.all_eq_true.mp hctrl') d hd
      simp only [Bool.not_eq_eq_eq_not, Bool.not_true] at this
      simp [ctrlToSpace, this]
    have hmapnl : flattenNewlines ((a :: t0) ++ ',' :: c :: u) =
        (a :: t0) ++ ',' :: c :: u := by
      apply map_id_of_all
      intro d hd
      have hdc2 := (List.all_eq_true.mp hctrl') d hd
      have : (d == '\n') = false := by
        by_contra hx
        have hdn : d = '\n' := by
          cases hy : (d == '\n') with
          | false => exact absurd hy hx
          | true => simpa using hy
        subst hdn
        simp [isCtrlByte] at hdc2
      simp [this]
    have hstrip : stripBadEscapes ((a :: t0) ++ ',' :: c :: u) =
        (a :: t0) ++ ',' :: c :: u := stripBadEscapes_of_no_backslash hbs'
    have htrim : trimPy ((a :: t0) ++ ',' :: c :: u) =
        (a :: t0) ++ ',' :: c :: u :=
      trimPy_eq_self (c := '{') (d := '}') (by decide) (by decide) hhead' hlast'
    have hspan : braceSpan ((a :: t0) ++ ',' :: c :: u) =
        some ((a :: t0) ++ ',' :: c :: u) := braceSpan_full hhead' hlast'
    -- the two trailing-comma passes
    have hpt1 : hasPat '}' (a :: t0) = false := by
      cases hx : hasPat '}' (a :: t0) with
      | false => rfl
      | true =>
        have h5 := hasPat_extend (c :: u) hx
        have h6 : hasPat '}' ((a :: t0) ++ c :: u) = false := hq1
        rw [h5] at h6
        exact absurd h6 (by simp)
    have hpt2 : hasPat ']' (a :: t0) = false := by
      cases hx : hasPat ']' (a :: t0) with
      | false => rfl
      | true =>
        have h5 := hasPat_extend (c :: u) hx
        have h6 : hasPat ']' ((a :: t0) ++ c :: u) = false := hq2
        rw [h5] at h6
        exact absurd h6 (by simp)
    have hsuf1 : hasPat '}' (c :: u) = false := hasPat_suffix (x := a :: t0) hq1
    have hsuf2 : hasPat ']' (c :: u) = false := hasPat_suffix (x := a :: t0) hq2
    have hu1 : hasPat '}' u = false := (hasPat_cons_false hsuf1).2
    have hu2 : hasPat ']' u = false := (hasPat_cons_false hsuf2).2
    have hlen : ((a :: t0) ++ ',' :: c :: u).length =
        (a :: t0).length + (',' :: c :: u).length := List.length_append _ _
    have hsub12 : subTrailing ']' (subTrailing '}'
        ((a :: t0) ++ ',' :: c :: u)) = (a :: t0) ++ c :: u := by
      rcases hc with rfl | rfl
      · -- c = '}': the first pass removes the comma, the second is a no-op
        have hs1 : subTrailing '}' ((a :: t0) ++ ',' :: '}' :: u) =
            (a :: t0) ++ '}' :: u := by
          unfold subTrailing
          rw [subTF_split hpt1 (by exact ⟨by decide, by decide⟩) _ (le_of_eq hlen.symm)]
          rw [subTF_fire (by decide) hu1 _ (by simp)]
        rw [hs1]
        exact subTF_of_not_hasPat (by
          have : hasPat ']' ((a :: t0) ++ '}' :: u) = false := hq2
          exact this) _
      · -- c = ']': the first pass is a no-op, the second removes the comma
        have hs1 : subTrailing '}' ((a :: t0) ++ ',' :: ']' :: u) =
            (a :: t0) ++ ',' :: ']' :: u := by
          unfold subTrailing
          rw [subTF_split hpt1 (by exact ⟨by decide, by decide⟩) _ (le_of_eq hlen.symm)]
          rw [subTF_no_fire_bracket hsuf1]
        rw [hs1]
        unfold subTrailing
        rw [subTF_split hpt2 (by exact ⟨by decide, by decide⟩) _ (le_of_eq hlen.symm)]
        rw [subTF_fire (by decide) hu2 _ (by simp)]
    have hws : wsCollapse ((a :: t0) ++ c :: u) = (a :: t0) ++ c :: u :=
      wsCollapseF_noop hnr hsp _
    -- assemble the pipeline
    unfold safeExtractJson
    rw [if_neg (by simp [hne'])]
    simp only [replaceL_of_not_occurs _ hfj', replaceL_of_not_occurs _ hf',
      htrim, hmapctrl]
    rw [hmapnl, hstrip, hspan]
    simp only []
    rw [replaceL_of_not_occurs _ hdo', replaceL_of_not_occurs _ hdc', hsub12,
      hws]

theorem loads_serJ {v : Json} (hwf : wfJ v = true) : loads (serJ v) = some v := by
  unfold loads
  obtain ⟨c, t, hct, hws, _, _⟩ := serJ_head v
  have hskip : skipWs (serJ v) = serJ v := by rw [hct]; exact skipWs_cons hws
  have hfuel : sizeJ v ≤ 2 * (serJ v).length + 2 := by
    have := sizeJ_le_two_len v
    omega
  have hrt := (parse_ser_roundtrip (sizeJ v)).1 v [] (2 * (serJ v).length + 2)
    le_rfl hfuel hwf rfl
  simp only [List.append_nil] at hrt
  rw [hskip, hrt]
  simp [skipWs]

theorem loads_extra_data {v1 : Json} {rest : List Char} (hwf : wfJ v1 = true)
    (hro : restOk rest = true) (hne : ∃ d ∈ rest, isJsonWs d = false) :
    loads (serJ v1 ++ rest) = none := by
  unfold loads
  obtain ⟨c, t, hct, hws, _, _⟩ := serJ_head v1
  have hskip : skipWs (serJ v1 ++ rest) = serJ v1 ++ rest := by
    rw [hct, List.cons_append]
    exact skipWs_cons hws
  have hfuel : sizeJ v1 ≤ 2 * (serJ v1 ++ rest).length + 2 := by
    have h1 := sizeJ_le_two_len v1
    have h2 : (serJ v1 ++ rest).length = (serJ v1).length + rest.length :=
      List.length_append _ _
    omega
  have hrt := (parse_ser_roundtrip (sizeJ v1)).1 v1 rest
    (2 * (serJ v1 ++ rest).length + 2) le_rfl hfuel hwf hro
  rw [hskip, hrt]
  have hie : (skipWs rest).isEmpty = false := by
    obtain ⟨d, hd, hdw⟩ := hne
    cases hsw : skipWs rest with
    | cons e w => rfl
    | nil =>
      have hall := List.dropWhile_eq_nil_iff.mp hsw
      exact absurd (hall d hd) (by simp [hdw])
  simp [hie]

theorem retry_aux (l : List Attempt) :
    ∀ le lr, (∀ a ∈ l, attemptFails a = true) →
      (∃ e, presGenAux l le = .error e) ∧
      notesGenAux l lr = (match lastTextFrom l lr with
        | some r => NotesResult.rawText r
        | none => NotesResult.unboundRaw) := by
  induction l with
  | nil =>
    intro le lr _
    refine ⟨⟨le, rfl⟩, ?_⟩
    cases lr <;> rfl
  | cons a rest ih =>
    intro le lr hall
    have ha := hall a (List.mem_cons_self a rest)
    have hrest := fun b hb => hall b (List.mem_cons_of_mem a hb)
    cases a with
    | apiFail =>
      simpa [presGenAux, notesGenAux, lastTextFrom] using ih le lr hrest
    | text s =>
      cases hx : safeExtractJson s with
      | ok v => simp [attemptFails, hx] at ha
      | error e =>
        have := ih (some e) (some s) hrest
        simpa [presGenAux, notesGenAux, lastTextFrom, hx] using this

/-! ## Claim theorems -/
/-- C7: end-to-end scenario A.  On the exact input
`"Sure! Here you go:\n[fence]json\n{"a": 1, "b": [1,2,3],}\n[fence]\nHope that
helps!"` the prescription/clinical-notes extractor succeeds and returns
exactly the record `{"a": 1, "b": [1, 2, 3]}`: fences stripped, surrounding
prose discarded, trailing comma removed. -/
theorem scenarioA_extracts_record :
    safeExtractJson
      "Sure! Here you go:\n```json\n\x7b\"a\": 1, \"b\": [1,2,3],\x7d\n```\nHope that helps!".data
      = .ok (.obj (.cons ['a'] (.num 1) (.cons ['b']
          (.arr (.cons (.num 1) (.cons (.num 2) (.cons (.num 3) .nil)))) .nil))) := rfl

/-- C8: end-to-end scenario B.  On the exact input `{{"x": "y"}}` the
extractor succeeds and returns `{"x": "y"}`, because doubled braces are
collapsed before the parse attempt. -/
theorem scenarioB_collapses_doubled_braces :
    safeExtractJson "\x7b\x7b\"x\": \"y\"\x7d\x7d".data
      = .ok (.obj (.cons ['x'] (.str ['y']) .nil)) := rfl

/-- C1 counterexample: on the spec's own scenario-C input
`{"a":1} garbage {"b":2}` the extractor does NOT return the first object;
the greedy first-`{`-to-last-`}` span covers both objects and the
separating text, so the strict parse fails and a `parseFail` error is
raised. -/
theorem scenarioC_exact_input_parse_fails :
    safeExtractJson "\x7b\"a\":1\x7d garbage \x7b\"b\":2\x7d".data
      = .error (.parseFail "\x7b\"a\":1\x7d garbage \x7b\"b\":2\x7d".data) := rfl

/-- C1 (amended): for every two serialized objects separated by noise text,
as long as the combined text is pristine (no fences, control bytes,
backslashes, doubled braces, comma-before-closer patterns or whitespace
runs), the extractor raises `parseFail` carrying the whole greedy span: the
span runs from the first `{` to the last `}` and therefore covers both
objects, which the strict parser rejects as extra data. -/
theorem two_concatenated_objects_parse_fail (v1 v2 : Json) (mid : List Char)
    (hwf1 : wfJ v1 = true)
    (hro : restOk (mid ++ serJ v2) = true)
    (hne : ∃ d ∈ mid ++ serJ v2, isJsonWs d = false)
    (hp : pristine (serJ v1 ++ (mid ++ serJ v2)) = true) :
    safeExtractJson (serJ v1 ++ (mid ++ serJ v2)) =
      .error (.parseFail ((serJ v1 ++ (mid ++ serJ v2)).take 4000)) := by
  rw [safeExtractJson_of_pristine hp, loads_extra_data hwf1 hro hne]

/-- C1 witness: the amended theorem applied at `{"a": 1}`, noise
`" garbage "`, `{"b": 2}`. -/
theorem two_concatenated_objects_parse_fail_witness :
    safeExtractJson (serJ (.obj (.cons ['a'] (.num 1) .nil)) ++
        (" garbage ".data ++ serJ (.obj (.cons ['b'] (.num 2) .nil)))) =
      .error (.parseFail ((serJ (.obj (.cons ['a'] (.num 1) .nil)) ++
        (" garbage ".data ++ serJ (.obj (.cons ['b'] (.num 2) .nil)))).take 4000)) := by
  have hser1 : serJ (Json.obj (.cons ['a'] (.num 1) .nil)) =
      "\x7b\"a\": 1\x7d".data := by
    simp +decide [serJ, serPair, serOMore, intChars, natChars, natCharsF, digitChar]
  have hser2 : serJ (Json.obj (.cons ['b'] (.num 2) .nil)) =
      "\x7b\"b\": 2\x7d".data := by
    simp +decide [serJ, serPair, serOMore, intChars, natChars, natCharsF, digitChar]
  exact two_concatenated_objects_parse_fail _ _ _
    (by simp [wfJ, wfO, plainStr])
    (by rw [hser2]; decide)
    (⟨'g', List.mem_append_left _ (by decide), by decide⟩)
    (by rw [hser1, hser2]; decide)

/-- C2 counterexample: the serialize-then-extract round trip fails on plain
values of the JSON data model.  A top-level number yields `noBlock` (no
braces exist), and a nested object whose serialization ends in `}}` is
corrupted by the doubled-brace collapse and yields `parseFail`. -/
theorem roundtrip_counterexample :
    safeExtractJson (serJ (.num 5)) = .error (.noBlock ['5']) ∧
    safeExtractJson (serJ (.obj (.cons ['a']
        (.obj (.cons ['b'] (.num 1) .nil)) .nil))) =
      .error (.parseFail "\x7b\"a\": \x7b\"b\": 1\x7d".data) := by
  constructor
  · have h : serJ (Json.num 5) = ['5'] := by
      simp +decide [serJ, intChars, natChars, natCharsF, digitChar]
    rw [h]
    rfl
  · have h : serJ (Json.obj (.cons ['a'] (.obj (.cons ['b'] (.num 1) .nil)) .nil)) =
        "\x7b\"a\": \x7b\"b\": 1\x7d\x7d".data := by
      simp +decide [serJ, serPair, serOMore, intChars, natChars, natCharsF, digitChar]
    rw [h]
    rfl

/-- C2 (amended): the round trip does hold on the pristine fragment — for
every well-formed value `v` (strings free of quotes and backslashes) whose
serialization is pristine (starts with `{`, ends with `}`, and contains no
fences, control bytes, backslashes, doubled braces, comma-before-closer
patterns or whitespace runs), extracting from `serJ v` returns `v`. -/
theorem roundtrip_on_pristine (v : Json) (hwf : wfJ v = true)
    (hp : pristine (serJ v) = true) :
    safeExtractJson (serJ v) = .ok v := by
  rw [safeExtractJson_of_pristine hp, loads_serJ hwf]

/-- C2 witness: the amended round trip at `{"a": 1, "b": [1, 2]}`. -/
theorem roundtrip_on_pristine_witness :
    safeExtractJson (serJ (.obj (.cons ['a'] (.num 1) (.cons ['b']
        (.arr (.cons (.num 1) (.cons (.num 2) .nil))) .nil)))) =
      .ok (.obj (.cons ['a'] (.num 1) (.cons ['b']
        (.arr (.cons (.num 1) (.cons (.num 2) .nil))) .nil))) := by
  have hser : serJ (Json.obj (.cons ['a'] (.num 1) (.cons ['b']
      (.arr (.cons (.num 1) (.cons (.num 2) .nil))) .nil))) =
      "\x7b\"a\": 1, \"b\": [1, 2]\x7d".data := by
    simp +decide [serJ, serPair, serOMore, serAMore, intChars, natChars,
      natCharsF, digitChar]
  exact roundtrip_on_pristine _
    (by simp [wfJ, wfO, wfA, plainStr])
    (by rw [hser]; decide)

/-- C9 counterexample: inserting a trailing comma before a closing brace
can change the extracted result.  For the valid serialized object
`{"a": {"b": 1}}` extraction fails (the doubled-brace collapse corrupts the
`}}` tail), while the comma-inserted variant `{"a": {"b": 1},}` — whose
braces are no longer adjacent — extracts successfully. -/
theorem trailing_comma_changes_result :
    safeExtractJson "\x7b\"a\": \x7b\"b\": 1\x7d\x7d".data =
      .error (.parseFail "\x7b\"a\": \x7b\"b\": 1\x7d".data) ∧
    safeExtractJson "\x7b\"a\": \x7b\"b\": 1\x7d,\x7d".data =
      .ok (.obj (.cons ['a'] (.obj (.cons ['b'] (.num 1) .nil)) .nil)) :=
  ⟨rfl, rfl⟩

/-- C9 (amended): on the pristine fragment trailing-comma insertion is
harmless — for every well-formed value whose serialization is pristine,
inserting a comma immediately before any closing `}` or `]` of the
serialization leaves the extracted result unchanged (both runs return the
value itself). -/
theorem trailing_comma_tolerant_on_pristine (v : Json) (t u : List Char)
    (c : Char) (hwf : wfJ v = true) (hser : serJ v = t ++ c :: u)
    (hc : c = '}' ∨ c = ']') (hp : pristine (serJ v) = true) :
    safeExtractJson (t ++ ',' :: c :: u) = .ok v ∧
    safeExtractJson (serJ v) = .ok v := by
  constructor
  · rw [safeExtract_insert_comma hc (by rw [← hser]; exact hp)]
    rw [← hser, loads_serJ hwf]
  · rw [safeExtractJson_of_pristine hp, loads_serJ hwf]

/-- C9 witness: the amended theorem at `{"a": 1}` with the comma inserted
before the final brace, yielding `{"a": 1,}`. -/
theorem trailing_comma_tolerant_on_pristine_witness :
    safeExtractJson ("\x7b\"a\": 1".data ++ ',' :: '\x7d' :: []) =
      .ok (.obj (.cons ['a'] (.num 1) .nil)) ∧
    safeExtractJson (serJ (.obj (.cons ['a'] (.num 1) .nil))) =
      .ok (.obj (.cons ['a'] (.num 1) .nil)) := by
  have hser : serJ (Json.obj (.cons ['a'] (.num 1) .nil)) =
      "\x7b\"a\": 1".data ++ '\x7d' :: [] := by
    simp +decide [serJ, serPair, serOMore, intChars, natChars, natCharsF, digitChar]
  exact trailing_comma_tolerant_on_pristine _ _ _ _
    (by simp [wfJ, wfO, plainStr]) hser (Or.inl rfl)
    (by rw [hser]; decide)

/-- C3 counterexample: a whitespace-only input is truthy in Python, passes
the emptiness guard, is stripped to nothing, and fails with the
`noBlock` ("No JSON object found") kind — not with `emptyInput`. -/
theorem whitespace_input_not_emptyInput :
    safeExtractJson [' '] = .error (.noBlock []) ∧
    ExtErr.noBlock [] ≠ ExtErr.emptyInput := ⟨rfl, by simp⟩

/-- C3 (amended): the `if not text` guard of the prescription-bot extractor
catches only the genuinely empty string, raising `emptyInput` there; every
nonempty whitespace-only input instead reaches the span search and raises
`noBlock`, and never a partial success.  The medication-bot variant has no
emptiness guard at all: even the empty string yields its `noBlock` kind. -/
theorem empty_and_whitespace_error_kinds (s : List Char) :
    (s = [] → safeExtractJson s = .error .emptyInput) ∧
    (s ≠ [] → s.all isPyWs = true → safeExtractJson s = .error (.noBlock [])) ∧
    medSafeExtractJson [] = .error .noBlock := by
  refine ⟨fun hs => by subst hs; rfl, fun hne hws => ?_, rfl⟩
  have he : s.isEmpty = false := by
    cases s with
    | nil => exact absurd rfl hne
    | cons a t => rfl
  have hocc1 : occurs fenceJson s = false :=
    not_occurs_of_all hws (by decide)
  have hocc2 : occurs fence s = false :=
    not_occurs_of_all hws (by decide)
  have hdw : s.dropWhile isPyWs = [] := by
    rw [List.dropWhile_eq_nil_iff]
    intro a ha
    exact (List.all_eq_true.mp hws) a ha
  have htr : trimPy s = [] := by
    unfold trimPy
    rw [hdw]
    rfl
  unfold safeExtractJson
  rw [if_neg (by simp [he])]
  rw [replaceL_of_not_occurs _ hocc1, replaceL_of_not_occurs _ hocc2, htr]
  rfl

/-- C3 witness: the amended theorem at the single-space input. -/
theorem empty_and_whitespace_error_kinds_witness :
    safeExtractJson [' '] = .error (.noBlock []) :=
  (empty_and_whitespace_error_kinds [' ']).2.1 (by simp) (by decide)

/-- C4 counterexample: the consistency checker's `_safe_extract_json`
substitutes a default report INSIDE the extractor: on empty input it
returns the successful record
`{"consistency_report": {"errors": ["Empty response from LLM"], …}}`
to its caller instead of raising a typed failure. -/
theorem consistency_extractor_substitutes_default :
    consistencySafeExtract [] =
      consistencyDefault "Empty response from LLM".data := rfl

/-- C4 (amended): the prescription-bot extractor surfaces its three failure
kinds as a single typed raised failure, but the consistency-checker variant
never raises: it equals the typed-failure pipeline post-composed with
internal default-report substitution, one fixed report per failure kind. -/
theorem consistency_extract_refines_typed_errors (text : List Char) :
    consistencySafeExtract text =
      (match consistencyExtractE text with
       | .ok v => v
       | .error e => consistencyDefaultFor e) := by
  unfold consistencySafeExtract consistencyExtractE
  by_cases he : text.isEmpty = true
  · simp [he, consistencyDefaultFor]
  · simp only [he, Bool.false_eq_true, if_false]
    cases hb : braceSpan ((trimPy (replaceL fence [] (replaceL fenceJson []
        text))).map ctrlToSpace) with
    | none => rfl
    | some j =>
      cases hl : loads (subTrailing '}' (subTrailing ']' j)) with
      | none => simp [hl, consistencyDefaultFor]
      | some v => simp [hl]

/-- C5: in the vitals bot neither `json` nor `re` is imported.  For every
nonempty input the first `json.loads` attempt raises `NameError`, which the
bare `except Exception: pass` swallows, and the following `re.search` then
raises `NameError` outside any handler, so no parsed record is ever
returned; only the empty string produces the intended `ValueError`. -/
theorem vitals_extract_uncaught_nameError (s : List Char) :
    (s ≠ [] → vitalsSafeExtract s = .nameError "re") ∧
    (s = [] → vitalsSafeExtract s = .valueErrorEmpty) := by
  constructor
  · intro hne
    cases s with
    | nil => exact absurd rfl hne
    | cons a t => rfl
  · intro hs
    subst hs
    rfl

/-- C5 witness: the theorem at the one-character input `"x"`. -/
theorem vitals_extract_uncaught_nameError_witness :
    vitalsSafeExtract ['x'] = .nameError "re" :=
  (vitals_extract_uncaught_nameError ['x']).1 (by simp)

/-- C6 counterexample: the clinical-notes retry loop does not propagate the
extraction error after its three attempts are exhausted — with three
completions whose text contains no braces, it returns the raw unparsed
text (`return raw`), a non-error value. -/
theorem notes_retry_returns_raw_text :
    notesGen (.text "oops".data) (.text "oops".data) (.text "oops".data) =
      .rawText "oops".data := rfl

/-- C6 (amended): every modelled retry loop makes at most three attempts; on
exhaustion the prescription bot propagates an error value, but the
clinical-notes bot instead returns the raw text of the last completion
(or hits the unbound-`raw` path when no completion ever succeeded). -/
theorem retry_exhaustion_outcomes (a0 a1 a2 : Attempt)
    (h0 : attemptFails a0 = true) (h1 : attemptFails a1 = true)
    (h2 : attemptFails a2 = true) :
    (∃ e, presGen a0 a1 a2 = .error e) ∧
    notesGen a0 a1 a2 =
      (match lastTextFrom [a0, a1, a2] none with
       | some r => NotesResult.rawText r
       | none => NotesResult.unboundRaw) := by
  have hall : ∀ a ∈ [a0, a1, a2], attemptFails a = true := by
    intro a ha
    simp only [List.mem_cons, List.mem_singleton] at ha
    rcases ha with rfl | rfl | rfl | h
    · exact h0
    · exact h1
    · exact h2
    · simp at h
  exact retry_aux [a0, a1, a2] none none hall

/-- C6 witness: the amended theorem with three identical brace-free
completions. -/
theorem retry_exhaustion_outcomes_witness :
    (∃ e, presGen (.text "oops".data) (.text "oops".data) (.text "oops".data) =
      .error e) ∧
    notesGen (.text "oops".data) (.text "oops".data) (.text "oops".data) =
      .rawText "oops".data := by
  have h := retry_exhaustion_outcomes (.text "oops".data) (.text "oops".data)
    (.text "oops".data) rfl rfl rfl
  exact ⟨h.1, h.2⟩

/-- Zeta-reduced form of the router, for rewriting. -/
theorem route_unfolded (resp : List Char) :
    routeToSpecialistBot resp =
      (if (match parsedBotName resp with
           | some nm => nm
           | none => "EXPLAINER".data) ∈ validBots
       then (match parsedBotName resp with
             | some nm => nm
             | none => "EXPLAINER".data)
       else "EXPLAINER".data) := rfl

/-- C10: for every classification completion text, the router returns a bot
name from the fixed eight-element set; whenever the strict parse of the
cleaned response fails, or the uppercased parsed name is not in the set,
the result is `EXPLAINER`. -/
theorem route_always_valid_bot (resp : List Char) :
    routeToSpecialistBot resp ∈ validBots ∧
    (loads (routeClean resp) = none →
      routeToSpecialistBot resp = "EXPLAINER".data) ∧
    (∀ nm, parsedBotName resp = some nm → nm ∉ validBots →
      routeToSpecialistBot resp = "EXPLAINER".data) := by
  rw [route_unfolded]
  refine ⟨?_, ?_, ?_⟩
  · by_cases hb : (match parsedBotName resp with
        | some nm => nm
        | none => "EXPLAINER".data) ∈ validBots
    · rw [if_pos hb]; exact hb
    · rw [if_neg hb]; decide
  · intro hl
    have hpn : parsedBotName resp = none := by
      unfold parsedBotName
      rw [hl]
    rw [hpn]
    decide
  · intro nm hnm hnotin
    rw [hnm]
    exact if_neg hnotin

/-- C10 witness: on an unparseable completion the router falls back to
`EXPLAINER`. -/
theorem route_always_valid_bot_witness :
    routeToSpecialistBot "nonsense".data = "EXPLAINER".data :=
  (route_always_valid_bot "nonsense".data).2.1 rfl
